import Mathlib

/-!
Verification of the fixed-width modular arithmetic engine of
`node-zk-accelerate` (`src/native/src/neon_montgomery.cc`,
`src/native/src/blas_ops.cc`, `src/native/src/vdsp_ops.cc`,
`src/native/src/sme_ops.cc`).

Modelling conventions:
* a multi-limb number is a `List Nat` of 64-bit limbs, little-endian
  (index 0 = least significant), each limb `< 2 ^ 64`;
* the C `__uint128_t` intermediate arithmetic is modelled exactly with `Nat`
  (`%`/`/` by `2 ^ 64` recover the low/high halves);
* `double` coordinate values in the bucket accumulator and NTT butterfly are
  modelled as exact rationals (`ℚ`): the claims under study concern the
  integral / exact-field reading of those paths;
* output buffers written through pointers become return values, and the
  in-place state of the `t` scratch buffer is passed explicitly.
-/

namespace ZkAccel

/-- Value of a little-endian sequence of 64-bit limbs. -/
def limbsVal : List Nat → Nat
  | [] => 0
  | x :: xs => x + 2 ^ 64 * limbsVal xs

/-- All limbs fit in 64 bits. -/
def limbsValid (l : List Nat) : Prop := ∀ x ∈ l, x < 2 ^ 64

instance (l : List Nat) : Decidable (limbsValid l) :=
  inferInstanceAs (Decidable (∀ x ∈ l, x < 2 ^ 64))

theorem limbsVal_nil : limbsVal [] = 0 := rfl

theorem limbsVal_cons (x : Nat) (xs : List Nat) :
    limbsVal (x :: xs) = x + 2 ^ 64 * limbsVal xs := rfl

theorem pow64_succ (n : Nat) : 2 ^ (64 * (n + 1)) = 2 ^ (64 * n) * 2 ^ 64 := by
  rw [Nat.mul_succ, pow_add]

theorem limbsVal_lt {l : List Nat} (h : limbsValid l) :
    limbsVal l < 2 ^ (64 * l.length) := by
  induction l with
  | nil => simp [limbsVal]
  | cons x xs ih =>
    have hx : x < 2 ^ 64 := h x (List.mem_cons_self x xs)
    have hxs : limbsVal xs < 2 ^ (64 * xs.length) :=
      ih (fun y hy => h y (List.mem_cons_of_mem x hy))
    rw [limbsVal_cons, List.length_cons, pow64_succ]
    generalize hP : 2 ^ (64 * xs.length) = P at hxs
    have h2 : 2 ^ 64 * limbsVal xs ≤ 2 ^ 64 * (P - 1) :=
      Nat.mul_le_mul_left _ (by omega)
    omega

/--
`add_with_carry` (neon_montgomery.cc:38-51): limb-wise addition with carry
propagation through a 128-bit intermediate.  The loop body, with the carry
threaded explicitly.
-/
def addCarryLoop : List Nat → List Nat → Nat → List Nat × Nat
  | a :: as, b :: bs, carry =>
    let sum := a + b + carry
    let rest := addCarryLoop as bs (sum / 2 ^ 64)
    (sum % 2 ^ 64 :: rest.1, rest.2)
  | _, _, carry => ([], carry)

/-- `add_with_carry` with the initial carry 0 of the C source. -/
def add_with_carry (a b : List Nat) : List Nat × Nat := addCarryLoop a b 0

/--
`sub_with_borrow` (neon_montgomery.cc:57-70): limb-wise subtraction with
borrow propagation; the 128-bit wrap-around difference is modelled in `ℤ`,
`result[i]` is its low 64 bits and the new borrow is 1 exactly when the
difference is negative (the `diff >> 64` test of the source).
-/
def subBorrowLoop : List Nat → List Nat → Nat → List Nat × Nat
  | a :: as, b :: bs, borrow =>
    let diff : Int := (a : Int) - b - borrow
    let rest := subBorrowLoop as bs (if diff < 0 then 1 else 0)
    ((diff % (2 ^ 64 : Int)).toNat :: rest.1, rest.2)
  | _, _, borrow => ([], borrow)

/-- `sub_with_borrow` with the initial borrow 0 of the C source. -/
def sub_with_borrow (a b : List Nat) : List Nat × Nat := subBorrowLoop a b 0

theorem addCarryLoop_val :
    ∀ (a b : List Nat) (carry : Nat), a.length = b.length →
      limbsVal (addCarryLoop a b carry).1 +
        (addCarryLoop a b carry).2 * 2 ^ (64 * a.length) =
      limbsVal a + limbsVal b + carry := by
  intro a
  induction a with
  | nil =>
    intro b carry hlen
    cases b with
    | nil => simp [addCarryLoop, limbsVal]
    | cons y ys => simp at hlen
  | cons x xs ih =>
    intro b carry hlen
    cases b with
    | nil => simp at hlen
    | cons y ys =>
      have hlen' : xs.length = ys.length := by simpa using hlen
      have hrec := ih ys ((x + y + carry) / 2 ^ 64) hlen'
      simp only [addCarryLoop, limbsVal_cons, List.length_cons, pow64_succ]
      generalize hq : (addCarryLoop xs ys ((x + y + carry) / 2 ^ 64)).2 *
        2 ^ (64 * xs.length) = q at hrec
      rw [mul_comm (2 ^ (64 * xs.length)) (2 ^ 64), ← mul_assoc, mul_comm _ (2 ^ 64),
        mul_assoc, hq]
      omega

theorem addCarryLoop_carry_le :
    ∀ (a b : List Nat) (carry : Nat), limbsValid a → limbsValid b → carry ≤ 1 →
      (addCarryLoop a b carry).2 ≤ 1 := by
  intro a
  induction a with
  | nil => intro b carry _ _ hc; cases b <;> simpa [addCarryLoop]
  | cons x xs ih =>
    intro b carry ha hb hc
    cases b with
    | nil => simpa [addCarryLoop]
    | cons y ys =>
      have hx : x < 2 ^ 64 := ha x (List.mem_cons_self _ _)
      have hy : y < 2 ^ 64 := hb y (List.mem_cons_self _ _)
      have ha' : limbsValid xs := fun z hz => ha z (List.mem_cons_of_mem _ hz)
      have hb' : limbsValid ys := fun z hz => hb z (List.mem_cons_of_mem _ hz)
      simp only [addCarryLoop]
      exact ih ys ((x + y + carry) / 2 ^ 64) ha' hb' (by omega)

theorem subBorrowLoop_val :
    ∀ (a b : List Nat) (borrow : Nat), a.length = b.length →
      limbsValid a → limbsValid b → borrow ≤ 1 →
      limbsVal (subBorrowLoop a b borrow).1 + limbsVal b + borrow =
        limbsVal a + (subBorrowLoop a b borrow).2 * 2 ^ (64 * a.length) := by
  intro a
  induction a with
  | nil =>
    intro b borrow hlen _ _ _
    cases b with
    | nil => simp [subBorrowLoop, limbsVal]
    | cons y ys => simp at hlen
  | cons x xs ih =>
    intro b borrow hlen ha hb hbr
    cases b with
    | nil => simp at hlen
    | cons y ys =>
      have hlen' : xs.length = ys.length := by simpa using hlen
      have hx : x < 2 ^ 64 := ha x (List.mem_cons_self _ _)
      have hy : y < 2 ^ 64 := hb y (List.mem_cons_self _ _)
      have ha' : limbsValid xs := fun z hz => ha z (List.mem_cons_of_mem _ hz)
      have hb' : limbsValid ys := fun z hz => hb z (List.mem_cons_of_mem _ hz)
      set d : Int := (x : Int) - y - borrow with hd
      set nb : Nat := if d < 0 then 1 else 0 with hnb
      have hnb1 : nb ≤ 1 := by rw [hnb]; split <;> omega
      have hrec := ih ys nb hlen' ha' hb' hnb1
      have hr0 : (d % (2 ^ 64 : Int)).toNat + y + borrow = x + nb * 2 ^ 64 := by
        rw [hnb]
        split <;> rename_i hcase <;> rw [hd] at hcase ⊢ <;> omega
      simp only [subBorrowLoop, limbsVal_cons, List.length_cons, pow64_succ, ← hd, ← hnb]
      generalize hq : (subBorrowLoop xs ys nb).2 * 2 ^ (64 * xs.length) = q at hrec
      rw [mul_comm (2 ^ (64 * xs.length)) (2 ^ 64), ← mul_assoc, mul_comm _ (2 ^ 64),
        mul_assoc, hq]
      omega

theorem subBorrowLoop_valid :
    ∀ (a b : List Nat) (borrow : Nat), limbsValid (subBorrowLoop a b borrow).1 := by
  intro a
  induction a with
  | nil => intro b borrow; cases b <;> simp [subBorrowLoop, limbsValid]
  | cons x xs ih =>
    intro b borrow
    cases b with
    | nil => simp [subBorrowLoop, limbsValid]
    | cons y ys =>
      intro z hz
      simp only [subBorrowLoop, List.mem_cons] at hz
      rcases hz with hz | hz
      · subst hz
        have h1 : (0 : Int) ≤ ((x : Int) - y - borrow) % (2 ^ 64 : Int) :=
          Int.emod_nonneg _ (by norm_num)
        have h2 : ((x : Int) - y - borrow) % (2 ^ 64 : Int) < (2 ^ 64 : Int) :=
          Int.emod_lt_of_pos _ (by norm_num)
        omega
      · exact ih ys _ z hz

theorem subBorrowLoop_length :
    ∀ (a b : List Nat) (borrow : Nat), a.length = b.length →
      (subBorrowLoop a b borrow).1.length = a.length := by
  intro a
  induction a with
  | nil => intro b borrow hlen; cases b <;> simp_all [subBorrowLoop]
  | cons x xs ih =>
    intro b borrow hlen
    cases b with
    | nil => simp at hlen
    | cons y ys =>
      have hlen' : xs.length = ys.length := by simpa using hlen
      simp [subBorrowLoop, ih ys _ hlen']

theorem subBorrowLoop_borrow_le :
    ∀ (a b : List Nat) (borrow : Nat), borrow ≤ 1 →
      (subBorrowLoop a b borrow).2 ≤ 1 := by
  intro a
  induction a with
  | nil => intro b borrow hb; cases b <;> simpa [subBorrowLoop]
  | cons x xs ih =>
    intro b borrow hb
    cases b with
    | nil => simpa [subBorrowLoop]
    | cons y ys =>
      simp only [subBorrowLoop]
      exact ih ys _ (by split <;> omega)

/-- C3: carry-chain totality of `add_with_carry` and `sub_with_borrow`.
For equal-length valid-limb inputs (this covers the lengths 4 and 6 the
engine uses, and in particular all-`0xFFFFFFFFFFFFFFFF` worst cases):
the add returns `(result, carry)` with
`carry * 2^(64·L) + result = a + b` and `carry ∈ {0,1}`; the subtract returns
`(result, borrow)` with `result = a - b + borrow * 2^(64·L)` (stated
additively over `ℕ`) and `borrow = 1` iff `a < b` as unsigned big integers. -/
theorem add_sub_carry_chain_totality (a b : List Nat)
    (hlen : a.length = b.length) (ha : limbsValid a) (hb : limbsValid b) :
    ((add_with_carry a b).2 * 2 ^ (64 * a.length) + limbsVal (add_with_carry a b).1 =
        limbsVal a + limbsVal b ∧ (add_with_carry a b).2 ≤ 1) ∧
    (limbsVal (sub_with_borrow a b).1 + limbsVal b =
        limbsVal a + (sub_with_borrow a b).2 * 2 ^ (64 * a.length) ∧
      ((sub_with_borrow a b).2 = 1 ↔ limbsVal a < limbsVal b)) := by
  have hadd := addCarryLoop_val a b 0 hlen
  have haddc := addCarryLoop_carry_le a b 0 ha hb (by norm_num)
  have hsub := subBorrowLoop_val a b 0 hlen ha hb (by norm_num)
  have hsubb := subBorrowLoop_borrow_le a b 0 (by norm_num)
  have hva : limbsVal a < 2 ^ (64 * a.length) := limbsVal_lt ha
  have hvr : limbsVal (sub_with_borrow a b).1 < 2 ^ (64 * a.length) := by
    have hv := limbsVal_lt (subBorrowLoop_valid a b 0)
    rwa [subBorrowLoop_length a b 0 hlen] at hv
  refine ⟨⟨by simpa [add_with_carry] using by omega, haddc⟩, ⟨by simpa [sub_with_borrow] using by omega, ?_⟩⟩
  constructor
  · intro h1
    simp only [sub_with_borrow] at *
    rw [h1] at hsub
    omega
  · intro hlt
    simp only [sub_with_borrow] at *
    rcases Nat.le_one_iff_eq_zero_or_eq_one.mp hsubb with h0 | h1
    · rw [h0] at hsub; omega
    · exact h1

/--
`compare_limbs` (neon_montgomery.cc:76-86): lexicographic comparison from the
most significant limb down; `cmpMSB` is the loop over the reversed
(most-significant-first) lists.
-/
def cmpMSB : List Nat → List Nat → Int
  | a :: as, b :: bs => if a < b then -1 else if b < a then 1 else cmpMSB as bs
  | _, _ => 0

/-- `compare_limbs`: -1 if a < b, 0 if a == b, 1 if a > b. -/
def compare_limbs (a b : List Nat) : Int := cmpMSB a.reverse b.reverse

/-- Value of a most-significant-first limb list. -/
def msbVal : List Nat → Nat
  | [] => 0
  | x :: xs => x * 2 ^ (64 * xs.length) + msbVal xs

theorem msbVal_append (u v : List Nat) :
    msbVal (u ++ v) = msbVal u * 2 ^ (64 * v.length) + msbVal v := by
  induction u with
  | nil => simp [msbVal]
  | cons x xs ih =>
    have h1 : (x :: xs) ++ v = x :: (xs ++ v) := rfl
    rw [h1, msbVal, msbVal, ih, List.length_append, Nat.mul_add, pow_add]
    ring

theorem msbVal_reverse (l : List Nat) : msbVal l.reverse = limbsVal l := by
  induction l with
  | nil => simp [msbVal, limbsVal]
  | cons x xs ih =>
    simp only [List.reverse_cons, msbVal_append, ih, limbsVal_cons, msbVal,
      List.length_cons, List.length_nil]
    ring_nf

theorem msbVal_lt {l : List Nat} (h : limbsValid l) :
    msbVal l < 2 ^ (64 * l.length) := by
  have hv : limbsValid l.reverse := fun x hx => h x (List.mem_reverse.mp hx)
  have h1 := limbsVal_lt hv
  have h2 : msbVal l = limbsVal l.reverse := by
    rw [← msbVal_reverse, List.reverse_reverse]
  rw [h2]
  simpa [List.length_reverse] using h1

theorem cmpMSB_nonneg_iff :
    ∀ (a b : List Nat), a.length = b.length → limbsValid a → limbsValid b →
      (0 ≤ cmpMSB a b ↔ msbVal b ≤ msbVal a) := by
  intro a
  induction a with
  | nil =>
    intro b hlen _ _
    cases b with
    | nil => simp [cmpMSB, msbVal]
    | cons y ys => simp at hlen
  | cons x xs ih =>
    intro b hlen ha hb
    cases b with
    | nil => simp at hlen
    | cons y ys =>
      have hlen' : xs.length = ys.length := by simpa using hlen
      have ha' : limbsValid xs := fun z hz => ha z (List.mem_cons_of_mem _ hz)
      have hb' : limbsValid ys := fun z hz => hb z (List.mem_cons_of_mem _ hz)
      have hxs : msbVal xs < 2 ^ (64 * xs.length) := msbVal_lt ha'
      have hys : msbVal ys < 2 ^ (64 * ys.length) := msbVal_lt hb'
      rw [hlen'] at hxs
      simp only [cmpMSB, msbVal, hlen']
      generalize hP : 2 ^ (64 * ys.length) = P at *
      by_cases h1 : x < y
      · simp only [if_pos h1]
        have h3 : (x + 1) * P ≤ y * P := Nat.mul_le_mul_right P (by omega)
        have h4 : (x + 1) * P = x * P + P := by ring
        rw [h4] at h3
        constructor
        · intro h; omega
        · intro h; omega
      · by_cases h2 : y < x
        · simp only [if_neg h1, if_pos h2]
          have h3 : (y + 1) * P ≤ x * P := Nat.mul_le_mul_right P (by omega)
          have h4 : (y + 1) * P = y * P + P := by ring
          rw [h4] at h3
          constructor
          · intro _; omega
          · intro _; norm_num
        · have hxy : x = y := by omega
          subst hxy
          simp only [if_neg h1, if_neg h2]
          rw [ih ys hlen' ha' hb']
          omega

theorem compare_limbs_nonneg_iff {a b : List Nat} (hlen : a.length = b.length)
    (ha : limbsValid a) (hb : limbsValid b) :
    (0 ≤ compare_limbs a b ↔ limbsVal b ≤ limbsVal a) := by
  have := cmpMSB_nonneg_iff a.reverse b.reverse (by simp [hlen])
    (fun x hx => ha x (List.mem_reverse.mp hx))
    (fun x hx => hb x (List.mem_reverse.mp hx))
  rw [compare_limbs, this, msbVal_reverse, msbVal_reverse]

/--
Carry propagation tail of the inner loops of `neon_schoolbook_mul`
(neon_montgomery.cc:128-135) and `neon_montgomery_reduce`
(neon_montgomery.cc:170-177): `while (carry && k < 2*limb_count)` adds the
carry into successive limbs; a carry surviving past the end of the buffer is
dropped.
-/
def propCarry : List Nat → Nat → List Nat
  | [], _ => []
  | t :: ts, carry =>
    if carry = 0 then t :: ts
    else (t + carry) % 2 ^ 64 :: propCarry ts ((t + carry) / 2 ^ 64)

/--
Inner loop shared by `neon_schoolbook_mul` (neon_montgomery.cc:115-135) and
`neon_montgomery_reduce` (neon_montgomery.cc:160-177): starting at some
offset of the scratch buffer (here, `t` is the suffix of the buffer from that
offset), add `m * x[j]` limb-by-limb via `mul64_neon` low/high halves with
carry `carry = hi + (sum >> 64)`, then propagate the final carry through the
rest of the buffer.
-/
def mulAddLoop (m : Nat) : List Nat → List Nat → Nat → List Nat
  | x :: xs, t :: ts, carry =>
    let lo := m * x % 2 ^ 64
    let hi := m * x / 2 ^ 64
    let sum := t + lo + carry
    sum % 2 ^ 64 :: mulAddLoop m xs ts (hi + sum / 2 ^ 64)
  | [], ts, carry => propCarry ts carry
  | _ :: _, [], _ => []

/-- One row of the shared multiply-accumulate pattern: add `m * x * 2^(64*i)`
into the scratch buffer `t` (with truncation at the buffer end). -/
def addMulRow (m : Nat) (x t : List Nat) (i : Nat) : List Nat :=
  t.take i ++ mulAddLoop m x (t.drop i) 0

theorem mod_mul_split (A Bv C b : Nat) (hA : A < b) :
    (A + b * Bv) % (b * C) = A + b * (Bv % C) := by
  rcases Nat.eq_zero_or_pos C with hC | hC
  · subst hC; simp
  · have h1 : Bv = C * (Bv / C) + Bv % C := (Nat.div_add_mod Bv C).symm
    have h2 : A + b * Bv = (A + b * (Bv % C)) + (b * C) * (Bv / C) := by
      conv_lhs => rw [h1]
      ring
    rw [h2, Nat.add_mul_mod_self_left]
    apply Nat.mod_eq_of_lt
    have h3 : Bv % C ≤ C - 1 := by
      have := Nat.mod_lt Bv hC
      omega
    have h4 : b * (Bv % C) ≤ b * (C - 1) := Nat.mul_le_mul_left b h3
    have h5 : b * (C - 1) = b * C - b := by
      cases C with
      | zero => simp
      | succ n => simp [Nat.mul_succ]
    rw [h5] at h4
    have h6 : b ≤ b * C := Nat.le_mul_of_pos_right b hC
    omega

theorem propCarry_length (t : List Nat) (carry : Nat) :
    (propCarry t carry).length = t.length := by
  induction t generalizing carry with
  | nil => simp [propCarry]
  | cons x xs ih =>
    simp only [propCarry]
    split
    · rfl
    · simp [ih]

theorem propCarry_valid {t : List Nat} (ht : limbsValid t) (carry : Nat) :
    limbsValid (propCarry t carry) := by
  induction t generalizing carry with
  | nil => simpa [propCarry] using ht
  | cons x xs ih =>
    simp only [propCarry]
    split
    · exact ht
    · intro z hz
      rcases List.mem_cons.mp hz with hz | hz
      · subst hz; exact Nat.mod_lt _ (by norm_num)
      · exact ih (fun y hy => ht y (List.mem_cons_of_mem _ hy)) _ z hz

theorem propCarry_val {t : List Nat} (ht : limbsValid t) (carry : Nat) :
    limbsVal (propCarry t carry) = (limbsVal t + carry) % 2 ^ (64 * t.length) := by
  induction t generalizing carry with
  | nil => simp [propCarry, limbsVal, Nat.mod_one]
  | cons x xs ih =>
    have hx : x < 2 ^ 64 := ht x (List.mem_cons_self _ _)
    have hxs : limbsValid xs := fun y hy => ht y (List.mem_cons_of_mem _ hy)
    simp only [propCarry]
    split
    · rename_i h0
      subst h0
      rw [limbsVal_cons, List.length_cons, pow64_succ, Nat.add_zero, mul_comm _ (2 ^ 64)]
      rw [Nat.mod_eq_of_lt]
      have h1 := limbsVal_lt hxs
      generalize hP : 2 ^ (64 * xs.length) = P at *
      have h2 : 2 ^ 64 * limbsVal xs ≤ 2 ^ 64 * (P - 1) := Nat.mul_le_mul_left _ (by omega)
      omega
    · rw [limbsVal_cons, limbsVal_cons, List.length_cons, pow64_succ, ih hxs,
        mul_comm (2 ^ (64 * xs.length)) (2 ^ 64)]
      generalize limbsVal xs = L
      have hnum : x + 2 ^ 64 * L + carry =
          (x + carry) % 2 ^ 64 + 2 ^ 64 * (L + (x + carry) / 2 ^ 64) := by omega
      rw [hnum, mod_mul_split _ _ _ _ (Nat.mod_lt _ (by norm_num))]

theorem mulAddLoop_length (m : Nat) :
    ∀ (x t : List Nat) (carry : Nat), x.length ≤ t.length →
      (mulAddLoop m x t carry).length = t.length := by
  intro x
  induction x with
  | nil => intro t carry _; simp [mulAddLoop, propCarry_length]
  | cons x0 xs ih =>
    intro t carry hlen
    cases t with
    | nil => simp at hlen
    | cons t0 ts =>
      have hlen' : xs.length ≤ ts.length := by simpa using hlen
      simp [mulAddLoop, ih ts _ hlen']

theorem mulAddLoop_valid (m : Nat) :
    ∀ (x t : List Nat) (carry : Nat), limbsValid t →
      limbsValid (mulAddLoop m x t carry) := by
  intro x
  induction x with
  | nil => intro t carry ht; exact propCarry_valid ht carry
  | cons x0 xs ih =>
    intro t carry ht
    cases t with
    | nil => simp [mulAddLoop, limbsValid]
    | cons t0 ts =>
      intro z hz
      simp only [mulAddLoop, List.mem_cons] at hz
      rcases hz with hz | hz
      · subst hz; exact Nat.mod_lt _ (by norm_num)
      · exact ih ts _ (fun y hy => ht y (List.mem_cons_of_mem _ hy)) z hz

theorem mulAddLoop_val (m : Nat) :
    ∀ (x t : List Nat) (carry : Nat), x.length ≤ t.length → limbsValid t →
      limbsVal (mulAddLoop m x t carry) =
        (limbsVal t + m * limbsVal x + carry) % 2 ^ (64 * t.length) := by
  intro x
  induction x with
  | nil =>
    intro t carry _ ht
    simp [mulAddLoop, propCarry_val ht, limbsVal]
  | cons x0 xs ih =>
    intro t carry hlen ht
    cases t with
    | nil => simp at hlen
    | cons t0 ts =>
      have hlen' : xs.length ≤ ts.length := by simpa using hlen
      have ht0 : t0 < 2 ^ 64 := ht t0 (List.mem_cons_self _ _)
      have hts : limbsValid ts := fun y hy => ht y (List.mem_cons_of_mem _ hy)
      simp only [mulAddLoop, limbsVal_cons, List.length_cons, pow64_succ]
      rw [ih ts _ hlen' hts, mul_comm (2 ^ (64 * ts.length)) (2 ^ 64)]
      generalize hXs : limbsVal xs = Xs
      generalize hTs : limbsVal ts = Ts
      have hdist : m * (x0 + 2 ^ 64 * Xs) = m * x0 + 2 ^ 64 * (m * Xs) := by ring
      have hnum : t0 + 2 ^ 64 * Ts + m * (x0 + 2 ^ 64 * Xs) + carry =
          (t0 + m * x0 % 2 ^ 64 + carry) % 2 ^ 64 +
            2 ^ 64 * (Ts + m * Xs +
              (m * x0 / 2 ^ 64 + (t0 + m * x0 % 2 ^ 64 + carry) / 2 ^ 64)) := by
        omega
      rw [hnum, mod_mul_split _ _ _ _ (Nat.mod_lt _ (by norm_num))]

theorem limbsVal_append (u v : List Nat) :
    limbsVal (u ++ v) = limbsVal u + 2 ^ (64 * u.length) * limbsVal v := by
  induction u with
  | nil => simp [limbsVal]
  | cons x xs ih =>
    have h1 : (x :: xs) ++ v = x :: (xs ++ v) := rfl
    rw [h1, limbsVal_cons, limbsVal_cons, ih, List.length_cons, pow64_succ]
    ring

theorem limbsVal_replicate_zero (n : Nat) : limbsVal (List.replicate n 0) = 0 := by
  induction n with
  | zero => rfl
  | succ k ih => simp [List.replicate_succ, limbsVal_cons, ih]

theorem limbsValid_replicate_zero (n : Nat) : limbsValid (List.replicate n 0) := by
  intro x hx
  rw [List.eq_of_mem_replicate hx]
  norm_num

theorem limbsValid_take (i : Nat) {t : List Nat} (ht : limbsValid t) :
    limbsValid (t.take i) :=
  fun x hx => ht x (List.mem_of_mem_take hx)

theorem limbsValid_drop (i : Nat) {t : List Nat} (ht : limbsValid t) :
    limbsValid (t.drop i) :=
  fun x hx => ht x (List.mem_of_mem_drop hx)

theorem limbsVal_take_add_drop (i : Nat) (t : List Nat) (hi : i ≤ t.length) :
    limbsVal t = limbsVal (t.take i) + 2 ^ (64 * i) * limbsVal (t.drop i) := by
  conv_lhs => rw [← List.take_append_drop i t]
  rw [limbsVal_append, List.length_take, Nat.min_eq_left hi]

theorem addMulRow_length (m : Nat) (x t : List Nat) (i : Nat)
    (h : i + x.length ≤ t.length) :
    (addMulRow m x t i).length = t.length := by
  rw [addMulRow, List.length_append, List.length_take,
    Nat.min_eq_left (by omega), mulAddLoop_length m x _ 0 (by simp; omega),
    List.length_drop]
  omega

theorem addMulRow_valid (m : Nat) (x : List Nat) {t : List Nat} (i : Nat)
    (ht : limbsValid t) : limbsValid (addMulRow m x t i) := by
  intro z hz
  rcases List.mem_append.mp hz with hz | hz
  · exact limbsValid_take i ht z hz
  · exact mulAddLoop_valid m x _ 0 (limbsValid_drop i ht) z hz

theorem addMulRow_val (m : Nat) (x t : List Nat) (i : Nat)
    (h : i + x.length ≤ t.length) (ht : limbsValid t) :
    limbsVal (addMulRow m x t i) =
      (limbsVal t + m * limbsVal x * 2 ^ (64 * i)) % 2 ^ (64 * t.length) := by
  have hi : i ≤ t.length := by omega
  have hxd : x.length ≤ (t.drop i).length := by simp; omega
  rw [addMulRow, limbsVal_append, List.length_take, Nat.min_eq_left hi,
    mulAddLoop_val m x (t.drop i) 0 hxd (limbsValid_drop i ht), Nat.add_zero,
    List.length_drop]
  have hA : limbsVal (t.take i) < 2 ^ (64 * i) := by
    have := limbsVal_lt (limbsValid_take i ht)
    rwa [List.length_take, Nat.min_eq_left hi] at this
  have hpow : 2 ^ (64 * t.length) = 2 ^ (64 * i) * 2 ^ (64 * (t.length - i)) := by
    rw [← pow_add]
    congr 1
    omega
  have hnum : limbsVal t + m * limbsVal x * 2 ^ (64 * i) =
      limbsVal (t.take i) + 2 ^ (64 * i) * (limbsVal (t.drop i) + m * limbsVal x) := by
    rw [limbsVal_take_add_drop i t hi]
    ring
  rw [hnum, hpow, mod_mul_split _ _ _ _ hA]

/--
`neon_schoolbook_mul` (neon_montgomery.cc:105-137) row iteration: for each
limb `a[i]` (outer loop), add `a[i] * b` into the scratch buffer at offset
`i`; the inner loop and trailing carry propagation are `addMulRow`.
-/
def schoolbookRows (b : List Nat) : List Nat → Nat → List Nat → List Nat
  | [], _, t => t
  | ai :: arest, i, t => schoolbookRows b arest (i + 1) (addMulRow ai b t i)

/-- `neon_schoolbook_mul`: `result = a * b` over a `2*limb_count`-limb
zero-initialized buffer. -/
def neon_schoolbook_mul (a b : List Nat) (limb_count : Nat) : List Nat :=
  schoolbookRows b a 0 (List.replicate (2 * limb_count) 0)

theorem schoolbookRows_length (b : List Nat) :
    ∀ (arest : List Nat) (i : Nat) (t : List Nat),
      i + arest.length + b.length ≤ t.length + 1 →
      (schoolbookRows b arest i t).length = t.length := by
  intro arest
  induction arest with
  | nil => intro i t _; rfl
  | cons ai as ih =>
    intro i t h
    have hrow : i + b.length ≤ t.length := by
      simp only [List.length_cons] at h
      omega
    have hlen := addMulRow_length ai b t i hrow
    rw [schoolbookRows, ih (i + 1) _ (by simp only [List.length_cons] at h; omega), hlen]

theorem schoolbookRows_valid (b : List Nat) :
    ∀ (arest : List Nat) (i : Nat) {t : List Nat}, limbsValid t →
      limbsValid (schoolbookRows b arest i t) := by
  intro arest
  induction arest with
  | nil => intro i t ht; exact ht
  | cons ai as ih =>
    intro i t ht
    exact ih (i + 1) (addMulRow_valid ai b i ht)

theorem schoolbookRows_val (b : List Nat) :
    ∀ (arest : List Nat) (i : Nat) (t : List Nat),
      i + arest.length + b.length ≤ t.length + 1 → limbsValid t →
      limbsVal (schoolbookRows b arest i t) =
        (limbsVal t + limbsVal arest * limbsVal b * 2 ^ (64 * i)) %
          2 ^ (64 * t.length) := by
  intro arest
  induction arest with
  | nil =>
    intro i t _ ht
    simp only [schoolbookRows, limbsVal_nil, Nat.zero_mul, Nat.mul_zero, Nat.zero_mul,
      Nat.add_zero]
    exact (Nat.mod_eq_of_lt (limbsVal_lt ht)).symm
  | cons ai as ih =>
    intro i t h ht
    have hrow : i + b.length ≤ t.length := by
      simp only [List.length_cons] at h
      omega
    have hlen := addMulRow_length ai b t i hrow
    have hcond : (i + 1) + as.length + b.length ≤ (addMulRow ai b t i).length + 1 := by
      rw [hlen]
      simp only [List.length_cons] at h
      omega
    have hunfold : schoolbookRows b (ai :: as) i t =
        schoolbookRows b as (i + 1) (addMulRow ai b t i) := rfl
    rw [hunfold, ih (i + 1) _ hcond (addMulRow_valid ai b i ht), hlen,
      addMulRow_val ai b t i hrow ht, Nat.mod_add_mod]
    have harg : limbsVal t + ai * limbsVal b * 2 ^ (64 * i) +
        limbsVal as * limbsVal b * 2 ^ (64 * (i + 1)) =
        limbsVal t + limbsVal (ai :: as) * limbsVal b * 2 ^ (64 * i) := by
      rw [limbsVal_cons, pow64_succ]
      ring
    rw [harg]

theorem neon_schoolbook_mul_length (a b : List Nat) (limb_count : Nat)
    (h : a.length + b.length ≤ 2 * limb_count + 1) :
    (neon_schoolbook_mul a b limb_count).length = 2 * limb_count := by
  rw [neon_schoolbook_mul, schoolbookRows_length b a 0 _ (by simpa using h),
    List.length_replicate]

theorem neon_schoolbook_mul_valid (a b : List Nat) (limb_count : Nat) :
    limbsValid (neon_schoolbook_mul a b limb_count) :=
  schoolbookRows_valid b a 0 (limbsValid_replicate_zero _)

theorem neon_schoolbook_mul_val (a b : List Nat) (limb_count : Nat)
    (hla : a.length = limb_count) (hlb : b.length = limb_count)
    (ha : limbsValid a) (hb : limbsValid b) :
    limbsVal (neon_schoolbook_mul a b limb_count) = limbsVal a * limbsVal b := by
  rw [neon_schoolbook_mul,
    schoolbookRows_val b a 0 _ (by simp [hla, hlb]; omega) (limbsValid_replicate_zero _),
    limbsVal_replicate_zero, List.length_replicate, Nat.zero_add, Nat.mul_zero, pow_zero,
    Nat.mul_one]
  apply Nat.mod_eq_of_lt
  have h1 : limbsVal a < 2 ^ (64 * limb_count) := hla ▸ limbsVal_lt ha
  have h2 : limbsVal b < 2 ^ (64 * limb_count) := hlb ▸ limbsVal_lt hb
  calc limbsVal a * limbsVal b < 2 ^ (64 * limb_count) * 2 ^ (64 * limb_count) :=
        Nat.mul_lt_mul'' h1 h2
    _ = 2 ^ (64 * (2 * limb_count)) := by rw [← pow_add]; congr 1; ring

theorem limbsVal_getD {l : List Nat} (hl : limbsValid l) :
    ∀ i, i < l.length → l.getD i 0 = limbsVal l / 2 ^ (64 * i) % 2 ^ 64 := by
  induction l with
  | nil => intro i hi; simp at hi
  | cons x xs ih =>
    intro i hi
    have hx : x < 2 ^ 64 := hl x (List.mem_cons_self _ _)
    have hxs : limbsValid xs := fun y hy => hl y (List.mem_cons_of_mem _ hy)
    cases i with
    | zero =>
      simp only [List.getD_cons_zero, limbsVal_cons, Nat.mul_zero, pow_zero, Nat.div_one]
      rw [Nat.add_mul_mod_self_left, Nat.mod_eq_of_lt hx]
    | succ j =>
      have hj : j < xs.length := by simpa using hi
      rw [List.getD_cons_succ, ih hxs j hj, limbsVal_cons]
      congr 1
      have h1 : 64 * (j + 1) = 64 + 64 * j := by ring
      rw [h1, pow_add, ← Nat.div_div_eq_div_mul,
        Nat.add_mul_div_left x _ (by norm_num : (0:Nat) < 2 ^ 64),
        Nat.div_eq_of_lt hx, Nat.zero_add]

theorem limbsVal_drop {t : List Nat} (ht : limbsValid t) (L : Nat)
    (hL : L ≤ t.length) :
    limbsVal (t.drop L) = limbsVal t / 2 ^ (64 * L) := by
  have h1 := limbsVal_take_add_drop L t hL
  have h2 : limbsVal (t.take L) < 2 ^ (64 * L) := by
    have := limbsVal_lt (limbsValid_take L ht)
    rwa [List.length_take, Nat.min_eq_left hL] at this
  rw [h1, Nat.add_mul_div_left _ _ (Nat.pos_pow_of_pos _ (by norm_num)),
    Nat.div_eq_of_lt h2, Nat.zero_add]

/--
`neon_montgomery_reduce` phase loop (neon_montgomery.cc:155-178): in phase
`i`, compute `m = t[i] * mu` (mod `2^64`) and add `m * modulus` into the
buffer at offset `i`, carries propagated and truncated at the buffer end.
The first argument counts the remaining phases.
-/
def reduceLoop (modulus : List Nat) (mu : Nat) : Nat → Nat → List Nat → List Nat
  | 0, _, t => t
  | n + 1, i, t =>
    reduceLoop modulus mu n (i + 1) (addMulRow (t.getD i 0 * mu % 2 ^ 64) modulus t i)

/--
`neon_montgomery_reduce` (neon_montgomery.cc:143-187): run `limb_count`
phases, copy the upper half of the buffer, then subtract the modulus once if
`compare_limbs(result, modulus) >= 0`.
-/
def neon_montgomery_reduce (t modulus : List Nat) (mu : Nat) (limb_count : Nat) :
    List Nat :=
  let t2 := reduceLoop modulus mu limb_count 0 t
  let result := t2.drop limb_count
  if 0 ≤ compare_limbs result modulus then (sub_with_borrow result modulus).1
  else result

theorem reduceLoop_length (modulus : List Nat) (mu : Nat) :
    ∀ (n i : Nat) (t : List Nat), i + n + modulus.length ≤ t.length + 1 →
      (reduceLoop modulus mu n i t).length = t.length := by
  intro n
  induction n with
  | zero => intro i t _; rfl
  | succ n ih =>
    intro i t h
    have hrow : i + modulus.length ≤ t.length := by omega
    have hlen := addMulRow_length (t.getD i 0 * mu % 2 ^ 64) modulus t i hrow
    have hunfold : reduceLoop modulus mu (n + 1) i t =
        reduceLoop modulus mu n (i + 1) (addMulRow (t.getD i 0 * mu % 2 ^ 64) modulus t i) :=
      rfl
    rw [hunfold, ih (i + 1) _ (by rw [hlen]; omega), hlen]

theorem reduceLoop_valid (modulus : List Nat) (mu : Nat) :
    ∀ (n i : Nat) {t : List Nat}, limbsValid t →
      limbsValid (reduceLoop modulus mu n i t) := by
  intro n
  induction n with
  | zero => intro i t ht; exact ht
  | succ n ih =>
    intro i t ht
    exact ih (i + 1) (addMulRow_valid _ modulus i ht)

set_option maxHeartbeats 1000000 in
theorem reduceLoop_val (modulus : List Nat) (mu : Nat)
    (hmu : mu * limbsVal modulus % 2 ^ 64 = 2 ^ 64 - 1)
    (hmodlen : 0 < modulus.length) :
    ∀ (n i : Nat) (t : List Nat), limbsValid t →
      i + n + modulus.length ≤ t.length + 1 →
      2 ^ (64 * i) ∣ limbsVal t →
      limbsVal t + limbsVal modulus * (2 ^ (64 * (i + n)) - 2 ^ (64 * i)) <
        2 ^ (64 * t.length) →
      ∃ c, c < 2 ^ (64 * n) ∧
        limbsVal (reduceLoop modulus mu n i t) =
          limbsVal t + c * limbsVal modulus * 2 ^ (64 * i) ∧
        2 ^ (64 * (i + n)) ∣ limbsVal (reduceLoop modulus mu n i t) := by
  intro n
  induction n with
  | zero =>
    intro i t _ _ hdvd _
    refine ⟨0, by norm_num, by simp [reduceLoop], by simpa using hdvd⟩
  | succ n ih =>
    intro i t hvalid hlen hdvd hbound
    set vm := limbsVal modulus with hvm
    set q : Nat := t.getD i 0 * mu % 2 ^ 64 with hq
    have hqlt : q < 2 ^ 64 := Nat.mod_lt _ (by norm_num)
    have hrow : i + modulus.length ≤ t.length := by omega
    have hilt : i < t.length := by omega
    set t' := addMulRow q modulus t i with ht'
    have hlen' := addMulRow_length q modulus t i hrow
    have hvalid' : limbsValid t' := addMulRow_valid q modulus i hvalid
    -- powers of 2^64 that appear in the bounds
    set P := 2 ^ (64 * i) with hP
    set P1 := 2 ^ (64 * (i + 1)) with hP1
    set PN := 2 ^ (64 * (i + (n + 1))) with hPN
    have hBP : (2 ^ 64 - 1) * P = P1 - P := by
      rw [hP1, pow64_succ, ← hP, Nat.sub_one_mul]
      omega
    have hPP1 : P ≤ P1 := by
      rw [hP, hP1]
      exact Nat.pow_le_pow_right (by norm_num) (by omega)
    have hP1PN : P1 ≤ PN := by
      rw [hP1, hPN]
      exact Nat.pow_le_pow_right (by norm_num) (by omega)
    -- the phase does not overflow the buffer
    have hstep_le : q * vm * P ≤ vm * (P1 - P) := by
      have h1 : q * vm ≤ (2 ^ 64 - 1) * vm := Nat.mul_le_mul_right vm (by omega)
      have h2 : q * vm * P ≤ (2 ^ 64 - 1) * vm * P := Nat.mul_le_mul_right P h1
      have h3 : (2 ^ 64 - 1) * vm * P = vm * ((2 ^ 64 - 1) * P) := by ring
      rw [h3, hBP] at h2
      exact h2
    have hmono : vm * (P1 - P) ≤ vm * (PN - P) :=
      Nat.mul_le_mul_left vm (by omega)
    have hnoover : limbsVal t + q * vm * P < 2 ^ (64 * t.length) := by
      have := hbound
      omega
    have hval' : limbsVal t' = limbsVal t + q * vm * P := by
      rw [ht', addMulRow_val q modulus t i hrow hvalid, ← hvm, ← hP]
      exact Nat.mod_eq_of_lt hnoover
    -- divisibility by 2^(64*(i+1)) after the phase
    set s := limbsVal t / P with hs
    have hts : limbsVal t = P * s :=
      (Nat.mul_div_cancel' hdvd).symm
    have hgetD : t.getD i 0 = s % 2 ^ 64 := by
      rw [limbsVal_getD hvalid i hilt, ← hP, ← hs]
    have hdvdB : (2 : Nat) ^ 64 ∣ s + q * vm := by
      have e1 : q ≡ s * mu [MOD 2 ^ 64] := by
        rw [hq, hgetD]
        calc s % 2 ^ 64 * mu % 2 ^ 64 ≡ s % 2 ^ 64 * mu [MOD 2 ^ 64] :=
              Nat.mod_modEq _ _
          _ ≡ s * mu [MOD 2 ^ 64] := (Nat.mod_modEq s (2 ^ 64)).mul_right mu
      have e2 : q * vm ≡ s * (mu * vm) [MOD 2 ^ 64] := by
        have := e1.mul_right vm
        calc q * vm ≡ s * mu * vm [MOD 2 ^ 64] := this
          _ = s * (mu * vm) := by ring
      have e3 : mu * vm ≡ 2 ^ 64 - 1 [MOD 2 ^ 64] := by
        unfold Nat.ModEq
        rw [hmu, Nat.mod_eq_of_lt (by norm_num)]
      have e4 : s + q * vm ≡ s + s * (2 ^ 64 - 1) [MOD 2 ^ 64] :=
        (Nat.ModEq.refl s).add (e2.trans ((Nat.ModEq.refl s).mul e3))
      have e5 : s + s * (2 ^ 64 - 1) = s * 2 ^ 64 := by
        have : (1 : Nat) + (2 ^ 64 - 1) = 2 ^ 64 := by norm_num
        calc s + s * (2 ^ 64 - 1) = s * (1 + (2 ^ 64 - 1)) := by ring
          _ = s * 2 ^ 64 := by rw [this]
      have e6 : s + q * vm ≡ 0 [MOD 2 ^ 64] := by
        rw [e5] at e4
        exact e4.trans (Nat.modEq_zero_iff_dvd.mpr ⟨s, by ring⟩)
      exact Nat.modEq_zero_iff_dvd.mp e6
    have hdvd' : P1 ∣ limbsVal t' := by
      have h1 : limbsVal t' = P * (s + q * vm) := by
        rw [hval', hts]
        ring
      rw [h1, hP1, pow64_succ, ← hP]
      exact Nat.mul_dvd_mul_left P hdvdB
    -- recursion
    have hexp : 64 * (i + 1 + n) = 64 * (i + (n + 1)) := by ring
    have hbound' : limbsVal t' + vm * (2 ^ (64 * (i + 1 + n)) - 2 ^ (64 * (i + 1))) <
        2 ^ (64 * t'.length) := by
      rw [hlen', hexp, ← hPN, ← hP1, hval']
      have h9 : P1 - P + (PN - P1) = PN - P := by omega
      have hsum : vm * (P1 - P) + vm * (PN - P1) = vm * (PN - P) :=
        (Nat.mul_add vm (P1 - P) (PN - P1)).symm.trans (congrArg (fun z => vm * z) h9)
      have h2 : q * vm * P + vm * (PN - P1) ≤ vm * (PN - P) := by
        have h10 := Nat.add_le_add_right hstep_le (vm * (PN - P1))
        omega
      omega
    obtain ⟨c', hc'lt, hc'val, hc'dvd⟩ :=
      ih (i + 1) t' hvalid' (by rw [hlen']; omega) hdvd' hbound'
    have hunfold : reduceLoop modulus mu (n + 1) i t = reduceLoop modulus mu n (i + 1) t' :=
      rfl
    refine ⟨q + 2 ^ 64 * c', ?_, ?_, ?_⟩
    · have h1 : q + 2 ^ 64 * c' ≤ 2 ^ 64 - 1 + 2 ^ 64 * (2 ^ (64 * n) - 1) := by
        have := Nat.mul_le_mul_left (2 ^ 64) (Nat.le_sub_one_of_lt hc'lt)
        omega
      have h2 : (2 : Nat) ^ (64 * (n + 1)) = 2 ^ (64 * n) * 2 ^ 64 := pow64_succ n
      have h3 : (0 : Nat) < 2 ^ (64 * n) := Nat.pos_pow_of_pos _ (by norm_num)
      generalize hG : (2 : Nat) ^ (64 * n) = G at *
      have h4 : 2 ^ 64 * (G - 1) = 2 ^ 64 * G - 2 ^ 64 := by
        cases G with
        | zero => simp
        | succ g => simp [Nat.mul_succ]
      omega
    · rw [hunfold, hc'val, hval', ← hP1, hP1, pow64_succ, ← hP]
      ring
    · rw [hunfold]
      have hE : 64 * (i + 1 + n) = 64 * (i + (n + 1)) := by ring
      rw [hE, ← hPN] at hc'dvd
      exact hc'dvd

theorem neon_montgomery_reduce_correct (t modulus : List Nat) (mu L : Nat)
    (hL : 0 < L) (hmlen : modulus.length = L) (hmvalid : limbsValid modulus)
    (htlen : t.length = 2 * L) (htvalid : limbsValid t)
    (hmu : mu * limbsVal modulus % 2 ^ 64 = 2 ^ 64 - 1)
    (hvmpos : 0 < limbsVal modulus)
    (hT : limbsVal t < limbsVal modulus * 2 ^ (64 * L))
    (hbound : limbsVal t + limbsVal modulus * (2 ^ (64 * L) - 1) <
      2 ^ (64 * (2 * L))) :
    (neon_montgomery_reduce t modulus mu L).length = L ∧
    limbsValid (neon_montgomery_reduce t modulus mu L) ∧
    limbsVal (neon_montgomery_reduce t modulus mu L) < limbsVal modulus ∧
    limbsVal (neon_montgomery_reduce t modulus mu L) * 2 ^ (64 * L) %
        limbsVal modulus = limbsVal t % limbsVal modulus := by
  set vm := limbsVal modulus with hvm
  have hvmR : vm < 2 ^ (64 * L) := by
    have := limbsVal_lt hmvalid
    rwa [hmlen] at this
  have hRpos : (0 : Nat) < 2 ^ (64 * L) := Nat.pos_pow_of_pos _ (by norm_num)
  have hloop := reduceLoop_val modulus mu hmu (by omega) L 0 t htvalid
    (by omega) (by simpa using one_dvd _)
    (by simpa [htlen] using hbound)
  obtain ⟨c, hclt, hcval, hcdvd⟩ := hloop
  rw [Nat.zero_add] at hcdvd
  set T := reduceLoop modulus mu L 0 t with hT2
  have hTlen : T.length = 2 * L := by
    rw [hT2, reduceLoop_length modulus mu L 0 t (by omega), htlen]
  have hTvalid : limbsValid T := reduceLoop_valid modulus mu L 0 htvalid
  have hcval' : limbsVal T = limbsVal t + c * vm := by
    simpa using hcval
  have hTlt : limbsVal T < 2 ^ (64 * (2 * L)) := by
    have := limbsVal_lt hTvalid
    rwa [hTlen] at this
  -- the upper half of the buffer
  set r0 := T.drop L with hr0
  have hr0len : r0.length = L := by
    rw [hr0, List.length_drop, hTlen]
    omega
  have hr0valid : limbsValid r0 := limbsValid_drop L hTvalid
  have hr0val : limbsVal r0 = limbsVal T / 2 ^ (64 * L) :=
    limbsVal_drop hTvalid L (by omega)
  set u := limbsVal T / 2 ^ (64 * L) with hu
  have huR : u * 2 ^ (64 * L) = limbsVal T := Nat.div_mul_cancel hcdvd
  have hu2vm : u < 2 * vm := by
    have h1 : limbsVal T < 2 * vm * 2 ^ (64 * L) := by
      have h2 : c * vm ≤ (2 ^ (64 * L) - 1) * vm :=
        Nat.mul_le_mul_right vm (by omega)
      have h3 : (2 ^ (64 * L) - 1) * vm = 2 ^ (64 * L) * vm - vm := by
        rw [Nat.sub_one_mul]
      have h4 : vm * 2 ^ (64 * L) + (2 ^ (64 * L) * vm - vm) < 2 * vm * 2 ^ (64 * L) := by
        have h5 : 2 * vm * 2 ^ (64 * L) = vm * 2 ^ (64 * L) + 2 ^ (64 * L) * vm := by ring
        have h6 : vm ≤ 2 ^ (64 * L) * vm := Nat.le_mul_of_pos_left vm hRpos
        omega
      omega
    have := (Nat.div_lt_iff_lt_mul hRpos).mpr h1
    rwa [hu]
  have hcong : u * 2 ^ (64 * L) % vm = limbsVal t % vm := by
    rw [huR, hcval', Nat.add_mul_mod_self_right]
  -- unfold the conditional final subtraction
  have hsplit : neon_montgomery_reduce t modulus mu L =
      if 0 ≤ compare_limbs r0 modulus then (sub_with_borrow r0 modulus).1 else r0 := rfl
  have hcmp := compare_limbs_nonneg_iff (a := r0) (b := modulus)
    (by rw [hr0len, hmlen]) hr0valid hmvalid
  by_cases hge : 0 ≤ compare_limbs r0 modulus
  · -- subtract the modulus once
    have hvmu : vm ≤ u := by
      have h2 := hcmp.mp hge
      rw [hr0val] at h2
      rw [← hvm] at h2
      exact h2
    have hsubval := subBorrowLoop_val r0 modulus 0 (by rw [hr0len, hmlen])
      hr0valid hmvalid (by norm_num)
    have hsubvalid := subBorrowLoop_valid r0 modulus 0
    have hsublen : (sub_with_borrow r0 modulus).1.length = L := by
      rw [sub_with_borrow, subBorrowLoop_length r0 modulus 0 (by rw [hr0len, hmlen]), hr0len]
    have hsubb := subBorrowLoop_borrow_le r0 modulus 0 (by norm_num)
    have hreslt : limbsVal (sub_with_borrow r0 modulus).1 < 2 ^ (64 * L) := by
      have := limbsVal_lt (l := (sub_with_borrow r0 modulus).1) hsubvalid
      rwa [hsublen] at this
    have hborrow0 : (sub_with_borrow r0 modulus).2 = 0 := by
      rcases Nat.le_one_iff_eq_zero_or_eq_one.mp hsubb with h0 | h1
      · exact h0
      · exfalso
        rw [sub_with_borrow] at *
        rw [h1, hr0len] at hsubval
        have h2 : limbsVal r0 = u := hr0val
        omega
    have hresval : limbsVal (sub_with_borrow r0 modulus).1 + vm = u := by
      rw [sub_with_borrow] at *
      rw [hborrow0, hr0len] at hsubval
      have h2 : limbsVal r0 = u := hr0val
      omega
    rw [hsplit, if_pos hge]
    refine ⟨hsublen, hsubvalid, by omega, ?_⟩
    have h7 : limbsVal (sub_with_borrow r0 modulus).1 * 2 ^ (64 * L) % vm =
        (limbsVal (sub_with_borrow r0 modulus).1 * 2 ^ (64 * L) +
          2 ^ (64 * L) * vm) % vm := by
      rw [Nat.add_mul_mod_self_right]
    rw [h7]
    have h8 : limbsVal (sub_with_borrow r0 modulus).1 * 2 ^ (64 * L) +
        2 ^ (64 * L) * vm = u * 2 ^ (64 * L) := by
      rw [← hresval]
      ring
    rw [h8, hcong]
  · -- no subtraction needed
    have hult : u < vm := by
      have h1 : ¬ vm ≤ u := by
        intro h2
        apply hge
        apply hcmp.mpr
        rw [hr0val, ← hvm]
        exact h2
      omega
    rw [hsplit, if_neg hge]
    refine ⟨hr0len, hr0valid, ?_, ?_⟩
    · rw [hr0val]
      exact hult
    · rw [hr0val, hcong]

/-- `neon_montgomery_mul_4limb` (neon_montgomery.cc:197-253):
`result = a * b * R^-1 mod modulus` for 4-limb operands (`R = 2^256`),
as schoolbook multiplication into an 8-limb buffer followed by Montgomery
reduction. -/
def neon_montgomery_mul_4limb (a b modulus : List Nat) (mu : Nat) : List Nat :=
  neon_montgomery_reduce (neon_schoolbook_mul a b 4) modulus mu 4

/-- `neon_montgomery_mul_6limb` (neon_montgomery.cc:261-317): the 6-limb
(`R = 2^384`) instantiation of the same two-phase algorithm. -/
def neon_montgomery_mul_6limb (a b modulus : List Nat) (mu : Nat) : List Nat :=
  neon_montgomery_reduce (neon_schoolbook_mul a b 6) modulus mu 6

theorem mont_mul_correct_general (L : Nat) (hL : 0 < L)
    (a b modulus : List Nat) (mu : Nat)
    (hmlen : modulus.length = L) (hmvalid : limbsValid modulus)
    (halen : a.length = L) (havalid : limbsValid a)
    (hblen : b.length = L) (hbvalid : limbsValid b)
    (hmu : mu * limbsVal modulus % 2 ^ 64 = 2 ^ 64 - 1)
    (hsmall : 2 * limbsVal modulus ≤ 2 ^ (64 * L))
    (ha : limbsVal a < limbsVal modulus) (hb : limbsVal b < limbsVal modulus) :
    (neon_montgomery_reduce (neon_schoolbook_mul a b L) modulus mu L).length = L ∧
    limbsVal (neon_montgomery_reduce (neon_schoolbook_mul a b L) modulus mu L) <
      limbsVal modulus ∧
    limbsVal (neon_montgomery_reduce (neon_schoolbook_mul a b L) modulus mu L) *
        2 ^ (64 * L) % limbsVal modulus =
      limbsVal a * limbsVal b % limbsVal modulus := by
  set vm := limbsVal modulus with hvm
  have hvmpos : 0 < vm := by omega
  have hvmR : vm < 2 ^ (64 * L) := by
    have := limbsVal_lt hmvalid
    rwa [hmlen] at this
  have hRpos : (0 : Nat) < 2 ^ (64 * L) := Nat.pos_pow_of_pos _ (by norm_num)
  have htlen : (neon_schoolbook_mul a b L).length = 2 * L :=
    neon_schoolbook_mul_length a b L (by omega)
  have htvalid := neon_schoolbook_mul_valid a b L
  have htval : limbsVal (neon_schoolbook_mul a b L) = limbsVal a * limbsVal b :=
    neon_schoolbook_mul_val a b L halen hblen havalid hbvalid
  have hab : limbsVal a * limbsVal b < vm * vm := Nat.mul_lt_mul'' ha hb
  have hAB : vm * vm ≤ vm * 2 ^ (64 * L) := Nat.mul_le_mul_left vm (le_of_lt hvmR)
  have h1 : 2 * (vm * vm) ≤ vm * 2 ^ (64 * L) := by
    have h1a : vm * (2 * vm) ≤ vm * 2 ^ (64 * L) := Nat.mul_le_mul_left vm hsmall
    have h1b : vm * (2 * vm) = 2 * (vm * vm) := by ring
    omega
  have h2 : 2 * (vm * 2 ^ (64 * L)) ≤ 2 ^ (64 * L) * 2 ^ (64 * L) := by
    have h2a : (2 * vm) * 2 ^ (64 * L) ≤ 2 ^ (64 * L) * 2 ^ (64 * L) :=
      Nat.mul_le_mul_right _ hsmall
    have h2b : (2 * vm) * 2 ^ (64 * L) = 2 * (vm * 2 ^ (64 * L)) := by ring
    omega
  have h3 : 2 ^ (64 * L) * 2 ^ (64 * L) = 2 ^ (64 * (2 * L)) := by
    rw [← pow_add]
    congr 1
    ring
  have h4 : vm * (2 ^ (64 * L) - 1) ≤ vm * 2 ^ (64 * L) :=
    Nat.mul_le_mul_left vm (by omega)
  have hT : limbsVal (neon_schoolbook_mul a b L) < vm * 2 ^ (64 * L) := by
    rw [htval]
    omega
  have hbound : limbsVal (neon_schoolbook_mul a b L) +
      vm * (2 ^ (64 * L) - 1) < 2 ^ (64 * (2 * L)) := by
    rw [htval, ← h3]
    omega
  have hmain := neon_montgomery_reduce_correct (neon_schoolbook_mul a b L)
    modulus mu L hL hmlen hmvalid htlen htvalid hmu hvmpos hT hbound
  obtain ⟨hlen, hvalid, hlt, hcong⟩ := hmain
  exact ⟨hlen, hlt, by rw [hcong, htval]⟩

/-- C1 (amended): for `L ∈ {4, 6}`, an odd `L`-limb modulus `m` **with
`m < 2^(64·L - 1)`** (the extra bound the counterexample forces: the source
accumulates into a `2·L`-limb buffer and drops any carry out of its top, so
moduli with the top bit set can overflow it), `mu` with
`mu · m ≡ -1 (mod 2^64)`, and operands `a, b < m`,
`neon_montgomery_mul_4limb` / `neon_montgomery_mul_6limb` returns the
`L`-limb value `r < m` with `r · 2^(64·L) ≡ a·b (mod m)`, i.e.
`r = a·b·R⁻¹ mod m` for `R = 2^(64·L)`. -/
theorem montgomery_mul_correct_small_modulus
    (L : Nat) (hL : L = 4 ∨ L = 6) (a b modulus : List Nat) (mu : Nat)
    (hmlen : modulus.length = L) (hmvalid : limbsValid modulus)
    (halen : a.length = L) (havalid : limbsValid a)
    (hblen : b.length = L) (hbvalid : limbsValid b)
    (hmu : mu * limbsVal modulus % 2 ^ 64 = 2 ^ 64 - 1)
    (hmodd : limbsVal modulus % 2 = 1)
    (hsmall : limbsVal modulus < 2 ^ (64 * L - 1))
    (ha : limbsVal a < limbsVal modulus) (hb : limbsVal b < limbsVal modulus) :
    (if L = 4 then neon_montgomery_mul_4limb a b modulus mu
      else neon_montgomery_mul_6limb a b modulus mu).length = L ∧
    limbsVal (if L = 4 then neon_montgomery_mul_4limb a b modulus mu
      else neon_montgomery_mul_6limb a b modulus mu) < limbsVal modulus ∧
    limbsVal (if L = 4 then neon_montgomery_mul_4limb a b modulus mu
      else neon_montgomery_mul_6limb a b modulus mu) * 2 ^ (64 * L) %
        limbsVal modulus =
      limbsVal a * limbsVal b % limbsVal modulus := by
  rcases hL with h4 | h6
  · subst h4
    simp only [if_pos rfl]
    have hsmall2 : 2 * limbsVal modulus ≤ 2 ^ (64 * 4) := by
      have he : (2 : Nat) ^ (64 * 4 - 1) * 2 = 2 ^ (64 * 4) := by norm_num
      omega
    have hmain := mont_mul_correct_general 4 (by norm_num) a b modulus mu
      hmlen hmvalid halen havalid hblen hbvalid hmu hsmall2 ha hb
    exact hmain
  · subst h6
    simp only [if_neg (by norm_num : (6 : Nat) ≠ 4)]
    have hsmall2 : 2 * limbsVal modulus ≤ 2 ^ (64 * 6) := by
      have he : (2 : Nat) ^ (64 * 6 - 1) * 2 = 2 ^ (64 * 6) := by norm_num
      omega
    have hmain := mont_mul_correct_general 6 (by norm_num) a b modulus mu
      hmlen hmvalid halen havalid hblen hbvalid hmu hsmall2 ha hb
    exact hmain

/-- C1 counterexample: the claim as stated (any odd `L`-limb modulus) fails.
With `L = 4`, `m = 2^256 - 1` (odd, all limbs `0xFFFFFFFFFFFFFFFF`),
`mu = 1` (indeed `mu·m ≡ -1 (mod 2^64)`), and `a = b = m - 1 < m`, the code
returns the limb value `0`, but `a·b·R⁻¹ mod m = 1`
(`0 · 2^256 ≢ (m-1)² (mod m)`): the `2·L`-limb scratch buffer overflows and
the carry out of its top limb is silently dropped
(`while (carry && k < 2*limb_count)`). -/
theorem montgomery_mul_counterexample :
    limbsValid (List.replicate 4 (2 ^ 64 - 1)) ∧
    (List.replicate 4 (2 ^ 64 - 1)).length = 4 ∧
    limbsVal (List.replicate 4 (2 ^ 64 - 1)) % 2 = 1 ∧
    1 * limbsVal (List.replicate 4 (2 ^ 64 - 1)) % 2 ^ 64 = 2 ^ 64 - 1 ∧
    limbsValid ((2 ^ 64 - 2) :: List.replicate 3 (2 ^ 64 - 1)) ∧
    ((2 ^ 64 - 2) :: List.replicate 3 (2 ^ 64 - 1)).length = 4 ∧
    limbsVal ((2 ^ 64 - 2) :: List.replicate 3 (2 ^ 64 - 1)) <
      limbsVal (List.replicate 4 (2 ^ 64 - 1)) ∧
    ¬ (limbsVal (neon_montgomery_mul_4limb
          ((2 ^ 64 - 2) :: List.replicate 3 (2 ^ 64 - 1))
          ((2 ^ 64 - 2) :: List.replicate 3 (2 ^ 64 - 1))
          (List.replicate 4 (2 ^ 64 - 1)) 1) * 2 ^ (64 * 4) %
          limbsVal (List.replicate 4 (2 ^ 64 - 1)) =
        limbsVal ((2 ^ 64 - 2) :: List.replicate 3 (2 ^ 64 - 1)) *
          limbsVal ((2 ^ 64 - 2) :: List.replicate 3 (2 ^ 64 - 1)) %
          limbsVal (List.replicate 4 (2 ^ 64 - 1))) := by
  refine ⟨by decide, by decide, by decide, by decide, by decide, by decide, by decide, ?_⟩
  decide

/-- Witness for the amended C1 theorem at `L = 4`, `m = 13`,
`mu = -13⁻¹ mod 2^64 = 12770822820260458811`, `a = 5`, `b = 7`
(`5·7·R⁻¹ ≡ 3 (mod 13)`). -/
theorem montgomery_mul_correct_small_modulus_witness :
    limbsVal [13, 0, 0, 0] < 2 ^ (64 * 4 - 1) ∧
    ((if (4 : Nat) = 4 then
        neon_montgomery_mul_4limb [5, 0, 0, 0] [7, 0, 0, 0] [13, 0, 0, 0]
          12770822820260458811
      else
        neon_montgomery_mul_6limb [5, 0, 0, 0] [7, 0, 0, 0] [13, 0, 0, 0]
          12770822820260458811).length = 4 ∧
    limbsVal (if (4 : Nat) = 4 then
        neon_montgomery_mul_4limb [5, 0, 0, 0] [7, 0, 0, 0] [13, 0, 0, 0]
          12770822820260458811
      else
        neon_montgomery_mul_6limb [5, 0, 0, 0] [7, 0, 0, 0] [13, 0, 0, 0]
          12770822820260458811) < limbsVal [13, 0, 0, 0] ∧
    limbsVal (if (4 : Nat) = 4 then
        neon_montgomery_mul_4limb [5, 0, 0, 0] [7, 0, 0, 0] [13, 0, 0, 0]
          12770822820260458811
      else
        neon_montgomery_mul_6limb [5, 0, 0, 0] [7, 0, 0, 0] [13, 0, 0, 0]
          12770822820260458811) * 2 ^ (64 * 4) % limbsVal [13, 0, 0, 0] =
      limbsVal [5, 0, 0, 0] * limbsVal [7, 0, 0, 0] % limbsVal [13, 0, 0, 0]) :=
  ⟨by decide,
    montgomery_mul_correct_small_modulus 4 (Or.inl rfl) [5, 0, 0, 0] [7, 0, 0, 0]
      [13, 0, 0, 0] 12770822820260458811 (by decide) (by decide) (by decide)
      (by decide) (by decide) (by decide) (by decide) (by decide) (by decide)
      (by decide) (by decide)⟩

/--
`neon_batch_montgomery_mul` (neon_montgomery.cc:325-360): apply the 4- or
6-limb Montgomery multiply to each of `count` operand pairs read from flat
arrays at offsets `i * limb_count`; any other `limb_count` yields
`count * limb_count` zero limbs (the `memset` branch).
-/
def neon_batch_montgomery_mul (a b modulus : List Nat) (mu : Nat)
    (count limb_count : Nat) : List Nat :=
  if limb_count = 4 then
    ((List.range count).map (fun i =>
      neon_montgomery_mul_4limb ((a.drop (i * 4)).take 4)
        ((b.drop (i * 4)).take 4) modulus mu)).flatten
  else if limb_count = 6 then
    ((List.range count).map (fun i =>
      neon_montgomery_mul_6limb ((a.drop (i * 6)).take 6)
        ((b.drop (i * 6)).take 6) modulus mu)).flatten
  else
    List.replicate (count * limb_count) 0

theorem flatten_map_range_length (f : Nat → List Nat) (L : Nat)
    (hf : ∀ j, (f j).length = L) :
    ∀ count, (((List.range count).map f).flatten).length = count * L := by
  intro count
  induction count with
  | zero => simp
  | succ c ih =>
    rw [List.range_succ, List.map_append, List.flatten_append]
    simp only [List.length_append, ih, List.map_cons, List.map_nil, List.flatten_cons,
      List.flatten_nil, List.append_nil, hf c, Nat.succ_mul]

theorem flatten_map_range_block (f : Nat → List Nat) (L : Nat)
    (hf : ∀ j, (f j).length = L) :
    ∀ (count i : Nat), i < count →
      ((((List.range count).map f).flatten.drop (i * L)).take L) = f i := by
  intro count
  induction count with
  | zero => intro i hi; omega
  | succ c ih =>
    intro i hi
    have hA : (((List.range c).map f).flatten).length = c * L :=
      flatten_map_range_length f L hf c
    rw [List.range_succ, List.map_append, List.flatten_append]
    by_cases hic : i < c
    · have hmul : (i + 1) * L = i * L + L := by ring
      have hle : (i + 1) * L ≤ c * L := Nat.mul_le_mul_right L (by omega)
      rw [List.drop_append_of_le_length (by omega), List.take_append_of_le_length
        (by rw [List.length_drop]; omega)]
      exact ih i hic
    · have hieq : i = c := by omega
      subst hieq
      rw [← hA, List.drop_left]
      simp only [List.map_cons, List.map_nil, List.flatten_cons, List.flatten_nil,
        List.append_nil]
      rw [← hf i, List.take_length]

theorem mont_reduce_length_general (L : Nat) (a b modulus : List Nat) (mu : Nat)
    (hm : modulus.length = L) (ha : a.length ≤ L) (hb : b.length ≤ L) :
    (neon_montgomery_reduce (neon_schoolbook_mul a b L) modulus mu L).length = L := by
  have htlen : (neon_schoolbook_mul a b L).length = 2 * L :=
    neon_schoolbook_mul_length a b L (by omega)
  have hTlen : (reduceLoop modulus mu L 0 (neon_schoolbook_mul a b L)).length = 2 * L := by
    rw [reduceLoop_length modulus mu L 0 _ (by omega), htlen]
  have hr0len : ((reduceLoop modulus mu L 0 (neon_schoolbook_mul a b L)).drop L).length
      = L := by
    rw [List.length_drop, hTlen]
    omega
  simp only [neon_montgomery_reduce]
  split
  · rw [sub_with_borrow, subBorrowLoop_length _ modulus 0 (by rw [hr0len, hm]), hr0len]
  · exact hr0len

/-- C4: batch consistency — for `limb_count ∈ {4, 6}` and any `count`, the
`i`-th `limb_count`-limb output block of `neon_batch_montgomery_mul` equals
the single-pair Montgomery multiply (`neon_montgomery_mul_4limb` /
`neon_montgomery_mul_6limb`) applied to the `i`-th input blocks: the right
side mentions only the `i`-th blocks of `a` and `b`, so output `i` is
independent of `count` and of every other input pair. -/
theorem batch_consistency (a b modulus : List Nat) (mu : Nat)
    (count limb_count i : Nat)
    (hlc : (limb_count = 4 ∧ modulus.length = 4) ∨
      (limb_count = 6 ∧ modulus.length = 6))
    (hi : i < count) :
    ((neon_batch_montgomery_mul a b modulus mu count limb_count).drop
        (i * limb_count)).take limb_count =
      (if limb_count = 4 then
        neon_montgomery_mul_4limb ((a.drop (i * limb_count)).take limb_count)
          ((b.drop (i * limb_count)).take limb_count) modulus mu
      else
        neon_montgomery_mul_6limb ((a.drop (i * limb_count)).take limb_count)
          ((b.drop (i * limb_count)).take limb_count) modulus mu) := by
  rcases hlc with ⟨hlc, hm⟩ | ⟨hlc, hm⟩
  · subst hlc
    simp only [neon_batch_montgomery_mul, if_pos rfl]
    exact flatten_map_range_block _ 4
      (fun j => mont_reduce_length_general 4 _ _ modulus mu hm
        (by simp) (by simp)) count i hi
  · subst hlc
    simp only [neon_batch_montgomery_mul, if_neg (by norm_num : (6 : Nat) ≠ 4)]
    exact flatten_map_range_block _ 6
      (fun j => mont_reduce_length_general 6 _ _ modulus mu hm
        (by simp) (by simp)) count i hi

/-- Witness for C4: `count = 2`, `limb_count = 4`, block `i = 1`. -/
theorem batch_consistency_witness :
    (1 : Nat) < 2 ∧
    ((neon_batch_montgomery_mul [5, 0, 0, 0, 9, 0, 0, 0] [7, 0, 0, 0, 11, 0, 0, 0]
        [13, 0, 0, 0] 12770822820260458811 2 4).drop (1 * 4)).take 4 =
      (if (4 : Nat) = 4 then
        neon_montgomery_mul_4limb
          (([5, 0, 0, 0, 9, 0, 0, 0].drop (1 * 4)).take 4)
          (([7, 0, 0, 0, 11, 0, 0, 0].drop (1 * 4)).take 4) [13, 0, 0, 0]
          12770822820260458811
      else
        neon_montgomery_mul_6limb
          (([5, 0, 0, 0, 9, 0, 0, 0].drop (1 * 4)).take 4)
          (([7, 0, 0, 0, 11, 0, 0, 0].drop (1 * 4)).take 4) [13, 0, 0, 0]
          12770822820260458811) :=
  ⟨by decide,
    batch_consistency [5, 0, 0, 0, 9, 0, 0, 0] [7, 0, 0, 0, 11, 0, 0, 0] [13, 0, 0, 0]
      12770822820260458811 2 4 1 (Or.inl ⟨rfl, by decide⟩) (by decide)⟩

/-- C5: for a `limb_count` that is neither 4 nor 6,
`neon_batch_montgomery_mul` returns exactly `count * limb_count` zero limbs
(and, being a total function, neither raises nor performs arithmetic of the
unsupported width). -/
theorem batch_unsupported_limb_count (a b modulus : List Nat) (mu : Nat)
    (count limb_count : Nat) (h4 : limb_count ≠ 4) (h6 : limb_count ≠ 6) :
    neon_batch_montgomery_mul a b modulus mu count limb_count =
      List.replicate (count * limb_count) 0 ∧
    (neon_batch_montgomery_mul a b modulus mu count limb_count).length =
      count * limb_count ∧
    ∀ x ∈ neon_batch_montgomery_mul a b modulus mu count limb_count, x = 0 := by
  have heq : neon_batch_montgomery_mul a b modulus mu count limb_count =
      List.replicate (count * limb_count) 0 := by
    simp only [neon_batch_montgomery_mul, if_neg h4, if_neg h6]
  refine ⟨heq, ?_, ?_⟩
  · rw [heq, List.length_replicate]
  · intro x hx
    rw [heq] at hx
    exact List.eq_of_mem_replicate hx

/-- Witness for C5: `limb_count = 5`, `count = 2`. -/
theorem batch_unsupported_limb_count_witness :
    ((5 : Nat) ≠ 4 ∧ (5 : Nat) ≠ 6) ∧
    (neon_batch_montgomery_mul [1, 2] [3, 4] [13, 0, 0, 0] 7 2 5 =
      List.replicate (2 * 5) 0 ∧
    (neon_batch_montgomery_mul [1, 2] [3, 4] [13, 0, 0, 0] 7 2 5).length = 2 * 5 ∧
    ∀ x ∈ neon_batch_montgomery_mul [1, 2] [3, 4] [13, 0, 0, 0] 7 2 5, x = 0) :=
  ⟨⟨by decide, by decide⟩,
    batch_unsupported_limb_count [1, 2] [3, 4] [13, 0, 0, 0] 7 2 5
      (by decide) (by decide)⟩

/-- `getD` of a map over `List.range` at an in-range index. -/
theorem getD_map_range {α : Type} [Inhabited α] (f : Nat → α) (n i : Nat)
    (hi : i < n) (d : α) : ((List.range n).map f).getD i d = f i := by
  rw [List.getD_eq_getElem?_getD, List.getElem?_map, List.getElem?_range hi]
  rfl

/--
`vdsp_ntt_butterfly_f64` (vdsp_ops.cc:112-156), real/finite-field path (the
scalar loop of the non-Apple branch and of the allocation-failure branch,
which the vDSP branch reproduces element-wise): for each `i < n`,
`t = twiddle_real[i] * in_odd[i]`, `out_even[i] = in_even[i] + t`,
`out_odd[i] = in_even[i] - t`.  `twiddle_imag` is accepted for API
compatibility and unused (`(void)twiddle_imag`).  The `double` values are
modelled as exact rationals, the exact/real reading the spec's properties
address. -/
def vdsp_ntt_butterfly_f64 (in_even in_odd twiddle_real twiddle_imag : List ℚ)
    (n : Nat) : List ℚ × List ℚ :=
  ((List.range n).map (fun i =>
      in_even.getD i 0 + twiddle_real.getD i 0 * in_odd.getD i 0),
   (List.range n).map (fun i =>
      in_even.getD i 0 - twiddle_real.getD i 0 * in_odd.getD i 0))

/-- C6: for every `i < n`, `vdsp_ntt_butterfly_f64` sets
`out_even[i] = in_even[i] + twiddle_real[i] * in_odd[i]` and
`out_odd[i] = in_even[i] - twiddle_real[i] * in_odd[i]`, and the outputs do
not depend on `twiddle_imag`: replacing it by any other list gives the same
outputs. -/
theorem ntt_butterfly_elementwise
    (in_even in_odd twiddle_real twiddle_imag : List ℚ) (n i : Nat)
    (hi : i < n) :
    (vdsp_ntt_butterfly_f64 in_even in_odd twiddle_real twiddle_imag n).1.getD i 0 =
      in_even.getD i 0 + twiddle_real.getD i 0 * in_odd.getD i 0 ∧
    (vdsp_ntt_butterfly_f64 in_even in_odd twiddle_real twiddle_imag n).2.getD i 0 =
      in_even.getD i 0 - twiddle_real.getD i 0 * in_odd.getD i 0 ∧
    ∀ twiddle_imag2 : List ℚ,
      vdsp_ntt_butterfly_f64 in_even in_odd twiddle_real twiddle_imag2 n =
        vdsp_ntt_butterfly_f64 in_even in_odd twiddle_real twiddle_imag n :=
  ⟨getD_map_range _ n i hi 0, getD_map_range _ n i hi 0, fun _ => rfl⟩

/-- Witness for C6 at `n = 2`, `i = 1`. -/
theorem ntt_butterfly_elementwise_witness :
    (1 : Nat) < 2 ∧
    ((vdsp_ntt_butterfly_f64 [1, 2] [3, 4] [5, 6] [7, 8] 2).1.getD 1 0 =
      ([1, 2] : List ℚ).getD 1 0 +
        ([5, 6] : List ℚ).getD 1 0 * ([3, 4] : List ℚ).getD 1 0 ∧
    (vdsp_ntt_butterfly_f64 [1, 2] [3, 4] [5, 6] [7, 8] 2).2.getD 1 0 =
      ([1, 2] : List ℚ).getD 1 0 -
        ([5, 6] : List ℚ).getD 1 0 * ([3, 4] : List ℚ).getD 1 0 ∧
    ∀ twiddle_imag2 : List ℚ,
      vdsp_ntt_butterfly_f64 [1, 2] [3, 4] [5, 6] twiddle_imag2 2 =
        vdsp_ntt_butterfly_f64 [1, 2] [3, 4] [5, 6] [7, 8] 2) :=
  ⟨by decide, ntt_butterfly_elementwise [1, 2] [3, 4] [5, 6] [7, 8] 2 1 (by decide)⟩

/-- C7: butterfly self-consistency — on the real/finite-field path, for all
inputs and `i < n`, `out_even[i] + out_odd[i] = 2 * in_even[i]` and
`out_even[i] - out_odd[i] = 2 * twiddle_real[i] * in_odd[i]`, exactly. -/
theorem ntt_butterfly_self_consistency
    (in_even in_odd twiddle_real twiddle_imag : List ℚ) (n i : Nat)
    (hi : i < n) :
    (vdsp_ntt_butterfly_f64 in_even in_odd twiddle_real twiddle_imag n).1.getD i 0 +
      (vdsp_ntt_butterfly_f64 in_even in_odd twiddle_real twiddle_imag n).2.getD i 0 =
      2 * in_even.getD i 0 ∧
    (vdsp_ntt_butterfly_f64 in_even in_odd twiddle_real twiddle_imag n).1.getD i 0 -
      (vdsp_ntt_butterfly_f64 in_even in_odd twiddle_real twiddle_imag n).2.getD i 0 =
      2 * twiddle_real.getD i 0 * in_odd.getD i 0 := by
  have h1 := getD_map_range (fun i =>
    in_even.getD i 0 + twiddle_real.getD i 0 * in_odd.getD i 0) n i hi 0
  have h2 := getD_map_range (fun i =>
    in_even.getD i 0 - twiddle_real.getD i 0 * in_odd.getD i 0) n i hi 0
  constructor
  · rw [show (vdsp_ntt_butterfly_f64 in_even in_odd twiddle_real twiddle_imag n).1 =
      (List.range n).map (fun i =>
        in_even.getD i 0 + twiddle_real.getD i 0 * in_odd.getD i 0) from rfl, h1,
      show (vdsp_ntt_butterfly_f64 in_even in_odd twiddle_real twiddle_imag n).2 =
      (List.range n).map (fun i =>
        in_even.getD i 0 - twiddle_real.getD i 0 * in_odd.getD i 0) from rfl, h2]
    ring
  · rw [show (vdsp_ntt_butterfly_f64 in_even in_odd twiddle_real twiddle_imag n).1 =
      (List.range n).map (fun i =>
        in_even.getD i 0 + twiddle_real.getD i 0 * in_odd.getD i 0) from rfl, h1,
      show (vdsp_ntt_butterfly_f64 in_even in_odd twiddle_real twiddle_imag n).2 =
      (List.range n).map (fun i =>
        in_even.getD i 0 - twiddle_real.getD i 0 * in_odd.getD i 0) from rfl, h2]
    ring

/-- Witness for C7 at `n = 2`, `i = 0`. -/
theorem ntt_butterfly_self_consistency_witness :
    (0 : Nat) < 2 ∧
    ((vdsp_ntt_butterfly_f64 [1, 2] [3, 4] [5, 6] [7, 8] 2).1.getD 0 0 +
      (vdsp_ntt_butterfly_f64 [1, 2] [3, 4] [5, 6] [7, 8] 2).2.getD 0 0 =
      2 * ([1, 2] : List ℚ).getD 0 0 ∧
    (vdsp_ntt_butterfly_f64 [1, 2] [3, 4] [5, 6] [7, 8] 2).1.getD 0 0 -
      (vdsp_ntt_butterfly_f64 [1, 2] [3, 4] [5, 6] [7, 8] 2).2.getD 0 0 =
      2 * ([5, 6] : List ℚ).getD 0 0 * ([3, 4] : List ℚ).getD 0 0) :=
  ⟨by decide, ntt_butterfly_self_consistency [1, 2] [3, 4] [5, 6] [7, 8] 2 0 (by decide)⟩

/--
Loop body of the inner coordinate loop of the `blas_bucket_accumulate`
fallback (blas_ops.cc:227-229):
`bucket_accum[bucket*coord_size + c] += point_coords[i*coord_size + c]`.
`double` coordinates are modelled as exact integers (`ℤ`), the integral
setting the spec's properties address.
-/
def setAdd (point_coords : List ℤ) (coord_size i bucket : Nat) (acc : List ℤ)
    (c : Nat) : List ℤ :=
  acc.set (bucket * coord_size + c)
    (acc.getD (bucket * coord_size + c) 0 +
      point_coords.getD (i * coord_size + c) 0)

/-- Inner coordinate loop (`for c in 0..coord_size`) of the scatter-add. -/
def bucketInner (point_coords : List ℤ) (coord_size i bucket : Nat)
    (accum : List ℤ) : List ℤ :=
  (List.range coord_size).foldl (setAdd point_coords coord_size i bucket) accum

/--
`blas_bucket_accumulate` (blas_ops.cc:141-232), direct scatter-add path
(the `fallback` label, blas_ops.cc:222-232; it is also the reference
semantics the dense-matrix path computes): for each point `i < num_points`,
read `bucket = bucket_indices[i]`; if `bucket < num_buckets`, add each of
the point's `coord_size` coordinates into
`bucket_accum[bucket * coord_size + c]`, else skip the point.
-/
def blas_bucket_accumulate (bucket_indices : List Nat) (point_coords : List ℤ)
    (bucket_accum : List ℤ) (num_points num_buckets coord_size : Nat) :
    List ℤ :=
  (List.range num_points).foldl (fun acc i =>
    if bucket_indices.getD i 0 < num_buckets then
      bucketInner point_coords coord_size i (bucket_indices.getD i 0) acc
    else acc) bucket_accum

/--
`sme_bucket_outer_product` (sme_ops.cc:67-140), non-Apple direct path
(sme_ops.cc:129-139): `bucket_idx = scalars[i] & ((1 << window_size) - 1)`;
if `0 < bucket_idx ≤ num_buckets` then
`buckets[bucket_idx - 1] += points[i]` (digits are 1-based, slots 0-based).
The path's constant `false` return value is not modelled.
-/
def sme_bucket_outer_product (scalars : List Nat) (points : List ℤ)
    (buckets : List ℤ) (num_scalars num_buckets : Nat) (window_size : Nat) :
    List ℤ :=
  (List.range num_scalars).foldl (fun acc i =>
    let bucket_idx := scalars.getD i 0 &&& (2 ^ window_size - 1)
    if 0 < bucket_idx ∧ bucket_idx ≤ num_buckets then
      acc.set (bucket_idx - 1) (acc.getD (bucket_idx - 1) 0 + points.getD i 0)
    else acc) buckets

theorem getD_set_ne {α : Type} [Inhabited α] (l : List α) (i j : Nat) (v d : α)
    (h : i ≠ j) : (l.set i v).getD j d = l.getD j d := by
  rw [List.getD_eq_getElem?_getD, List.getElem?_set_ne h, ← List.getD_eq_getElem?_getD]

theorem getD_set_self {α : Type} [Inhabited α] (l : List α) (i : Nat) (v d : α)
    (h : i < l.length) : (l.set i v).getD i d = v := by
  rw [List.getD_eq_getElem?_getD, List.getElem?_set_self', List.getElem?_eq_getElem h]
  rfl

theorem slot_ne (b d c c' cs : Nat) (hc : c < cs) (hc' : c' < cs) (hbd : b ≠ d) :
    b * cs + c ≠ d * cs + c' := by
  intro h
  apply hbd
  have hcs : 0 < cs := by omega
  have h1 : (b * cs + c) / cs = b := by
    rw [Nat.add_comm, Nat.mul_comm, Nat.add_mul_div_left _ _ hcs,
      Nat.div_eq_of_lt hc, Nat.zero_add]
  have h2 : (d * cs + c') / cs = d := by
    rw [Nat.add_comm, Nat.mul_comm, Nat.add_mul_div_left _ _ hcs,
      Nat.div_eq_of_lt hc', Nat.zero_add]
  rw [← h1, ← h2, h]

theorem setAdd_fold_length (point_coords : List ℤ) (cs i b : Nat) :
    ∀ (cl : List Nat) (acc : List ℤ),
      (cl.foldl (setAdd point_coords cs i b) acc).length = acc.length := by
  intro cl
  induction cl with
  | nil => intro acc; rfl
  | cons c0 cl ih =>
    intro acc
    rw [List.foldl_cons, ih, setAdd, List.length_set]

theorem setAdd_fold_frame (point_coords : List ℤ) (cs i b : Nat) :
    ∀ (cl : List Nat) (acc : List ℤ) (pos : Nat),
      (∀ c ∈ cl, pos ≠ b * cs + c) →
      (cl.foldl (setAdd point_coords cs i b) acc).getD pos 0 = acc.getD pos 0 := by
  intro cl
  induction cl with
  | nil => intro acc pos _; rfl
  | cons c0 cl ih =>
    intro acc pos hpos
    rw [List.foldl_cons, ih _ pos (fun c hc => hpos c (List.mem_cons_of_mem _ hc)),
      setAdd, getD_set_ne]
    exact fun h => hpos c0 (List.mem_cons_self _ _) h.symm

theorem setAdd_fold_hit (point_coords : List ℤ) (cs i b : Nat) :
    ∀ (cl : List Nat) (acc : List ℤ) (c : Nat), cl.Nodup → c ∈ cl →
      b * cs + c < acc.length →
      (cl.foldl (setAdd point_coords cs i b) acc).getD (b * cs + c) 0 =
        acc.getD (b * cs + c) 0 + point_coords.getD (i * cs + c) 0 := by
  intro cl
  induction cl with
  | nil => intro acc c _ hc; simp at hc
  | cons c0 cl ih =>
    intro acc c hnd hc hlt
    rcases List.mem_cons.mp hc with hc0 | hcl
    · subst hc0
      have hnotin : c ∉ cl := (List.nodup_cons.mp hnd).1
      rw [List.foldl_cons, setAdd_fold_frame point_coords cs i b cl _ _
        (fun c' hc' h => hnotin (by rwa [show c' = c from by omega] at hc')),
        setAdd, getD_set_self _ _ _ _ hlt]
    · have hne : c0 ≠ c := by
        rintro rfl
        exact (List.nodup_cons.mp hnd).1 hcl
      rw [List.foldl_cons, ih _ c (List.nodup_cons.mp hnd).2 hcl
        (by rw [setAdd, List.length_set]; exact hlt), setAdd, getD_set_ne]
      intro h
      exact hne (by omega)

theorem bucketInner_length (point_coords : List ℤ) (cs i b : Nat)
    (accum : List ℤ) : (bucketInner point_coords cs i b accum).length = accum.length :=
  setAdd_fold_length point_coords cs i b (List.range cs) accum

theorem bucketInner_getD_hit (point_coords : List ℤ) (cs i b c : Nat)
    (accum : List ℤ) (hc : c < cs) (hlt : b * cs + c < accum.length) :
    (bucketInner point_coords cs i b accum).getD (b * cs + c) 0 =
      accum.getD (b * cs + c) 0 + point_coords.getD (i * cs + c) 0 :=
  setAdd_fold_hit point_coords cs i b (List.range cs) accum c (List.nodup_range cs)
    (List.mem_range.mpr hc) hlt

theorem bucketInner_getD_frame (point_coords : List ℤ) (cs i b d c : Nat)
    (accum : List ℤ) (hc : c < cs) (hbd : d ≠ b) :
    (bucketInner point_coords cs i b accum).getD (d * cs + c) 0 =
      accum.getD (d * cs + c) 0 :=
  setAdd_fold_frame point_coords cs i b (List.range cs) accum (d * cs + c)
    (fun c' hc' => slot_ne d b c c' cs hc (List.mem_range.mp hc') hbd)

/-- Per-slot characterization of the direct scatter-add: the final content
of slot `(b, c)`, `b < num_buckets`, is the initial content plus the sum of
coordinate `c` of exactly the points `i < num_points` with
`bucket_indices[i] = b`. -/
theorem blas_bucket_accumulate_getD (bucket_indices : List Nat)
    (point_coords : List ℤ) (num_buckets coord_size b c : Nat)
    (hb : b < num_buckets) (hc : c < coord_size) :
    ∀ (il : List Nat) (accum : List ℤ), b * coord_size + c < accum.length →
      (il.foldl (fun acc i =>
          if bucket_indices.getD i 0 < num_buckets then
            bucketInner point_coords coord_size i (bucket_indices.getD i 0) acc
          else acc) accum).getD (b * coord_size + c) 0 =
        accum.getD (b * coord_size + c) 0 +
        (il.map (fun i => if bucket_indices.getD i 0 = b then
          point_coords.getD (i * coord_size + c) 0 else 0)).sum := by
  intro il
  induction il with
  | nil => intro accum _; simp
  | cons i0 il ih =>
    intro accum hlt
    rw [List.foldl_cons, List.map_cons, List.sum_cons]
    by_cases hin : bucket_indices.getD i0 0 < num_buckets
    · rw [if_pos hin]
      by_cases heq : bucket_indices.getD i0 0 = b
      · rw [ih _ (by rw [bucketInner_length]; exact hlt), heq,
          bucketInner_getD_hit point_coords coord_size i0 b c accum hc hlt,
          if_pos rfl]
        ring
      · rw [ih _ (by rw [bucketInner_length]; exact hlt),
          bucketInner_getD_frame point_coords coord_size i0 _ b c accum hc
            (fun h => heq h.symm), if_neg heq]
        ring
    · have hne : bucket_indices.getD i0 0 ≠ b := by omega
      rw [if_neg hin, ih _ hlt, if_neg hne]
      ring

theorem slot_lt (b c nb cs : Nat) (hb : b < nb) (hc : c < cs) :
    b * cs + c < nb * cs := by
  have h1 : (b + 1) * cs ≤ nb * cs := Nat.mul_le_mul_right cs (by omega)
  have h2 : (b + 1) * cs = b * cs + cs := by ring
  omega

/-- C2 counterexample: on the spec scenario's inputs the scatter-add does
not produce `[60, 30, 40]`.  `blas_bucket_accumulate` performs no `digit-1`
remapping and no digit-0 skip: point 1 (index 0 < 3) is added to slot 0 and
point 3 (index 3 ≥ 3) is dropped. -/
theorem bucket_scenario_counterexample :
    blas_bucket_accumulate [1, 0, 2, 3, 1] [10, 20, 30, 40, 50] [0, 0, 0] 5 3 1 ≠
      [60, 30, 40] := by decide

/-- C2 (amended): with `bucket_indices = [1, 0, 2, 3, 1]`,
`point_coords = [10, 20, 30, 40, 50]`, `num_points = 5`, `num_buckets = 3`,
`coord_size = 1` and zero-initialized accumulators, the scatter-add produces
`[20, 60, 30]`: slot 0 gets point 1 (index 0 is a live slot), slot 1 gets
points 0 and 4, slot 2 gets point 2, and point 3 (index 3 ≥ num_buckets) is
skipped. -/
theorem bucket_scenario_amended :
    blas_bucket_accumulate [1, 0, 2, 3, 1] [10, 20, 30, 40, 50] [0, 0, 0] 5 3 1 =
      [20, 60, 30] := by decide

/-- C9: `blas_bucket_accumulate` treats `bucket_indices` as zero-based slot
numbers.  Each slot `b < num_buckets` — including `b = 0`, which is not
skipped as a "digit 0" — ends with its initial value plus the coordinates of
exactly the points `i` with `bucket_indices[i] = b` (no `digit - 1`
remapping); consequently exactly the points with
`bucket_indices[i] ≥ num_buckets` contribute to no slot. -/
theorem bucket_accumulate_zero_based (bucket_indices : List Nat)
    (point_coords bucket_accum : List ℤ)
    (num_points num_buckets coord_size b c : Nat)
    (hb : b < num_buckets) (hc : c < coord_size)
    (hlen : bucket_accum.length = num_buckets * coord_size) :
    (blas_bucket_accumulate bucket_indices point_coords bucket_accum num_points
        num_buckets coord_size).getD (b * coord_size + c) 0 =
      bucket_accum.getD (b * coord_size + c) 0 +
      ((List.range num_points).map (fun i => if bucket_indices.getD i 0 = b then
        point_coords.getD (i * coord_size + c) 0 else 0)).sum := by
  have hpos : b * coord_size + c < bucket_accum.length := by
    rw [hlen]
    exact slot_lt b c num_buckets coord_size hb hc
  exact blas_bucket_accumulate_getD bucket_indices point_coords num_buckets
    coord_size b c hb hc (List.range num_points) bucket_accum hpos

/-- Witness for C9: slot 0 receives points 0 and 2 (`bucket_indices` 0). -/
theorem bucket_accumulate_zero_based_witness :
    ((0 : Nat) < 2 ∧ (0 : Nat) < 1 ∧ ([100, 200] : List ℤ).length = 2 * 1) ∧
    (blas_bucket_accumulate [0, 2, 0] [3, 4, 5] [100, 200] 3 2 1).getD
        (0 * 1 + 0) 0 =
      ([100, 200] : List ℤ).getD (0 * 1 + 0) 0 +
      ((List.range 3).map (fun i => if ([0, 2, 0] : List Nat).getD i 0 = 0 then
        ([3, 4, 5] : List ℤ).getD (i * 1 + 0) 0 else 0)).sum :=
  ⟨⟨by decide, by decide, by decide⟩,
    bucket_accumulate_zero_based [0, 2, 0] [3, 4, 5] [100, 200] 3 2 1 0 0
      (by decide) (by decide) (by decide)⟩

/-- C10: frame property of the direct scatter-add — a bucket slot `b` that
no point with an in-range index names keeps its prior value in every
coordinate position (modification is purely additive and only touches slots
actually named by some `bucket_indices[i] < num_buckets`). -/
theorem bucket_accumulate_frame (bucket_indices : List Nat)
    (point_coords bucket_accum : List ℤ)
    (num_points num_buckets coord_size b : Nat)
    (hb : b < num_buckets)
    (hlen : bucket_accum.length = num_buckets * coord_size)
    (hnone : ∀ i < num_points, bucket_indices.getD i 0 ≠ b) :
    ∀ c < coord_size,
      (blas_bucket_accumulate bucket_indices point_coords bucket_accum num_points
          num_buckets coord_size).getD (b * coord_size + c) 0 =
        bucket_accum.getD (b * coord_size + c) 0 := by
  intro c hc
  have hpos : b * coord_size + c < bucket_accum.length := by
    rw [hlen]
    exact slot_lt b c num_buckets coord_size hb hc
  unfold blas_bucket_accumulate
  rw [blas_bucket_accumulate_getD bucket_indices point_coords num_buckets
    coord_size b c hb hc (List.range num_points) bucket_accum hpos]
  have hzero : ((List.range num_points).map
      (fun i => if bucket_indices.getD i 0 = b then
        point_coords.getD (i * coord_size + c) 0 else 0)).sum = 0 := by
    apply List.sum_eq_zero
    intro x hx
    obtain ⟨i, hi, hxi⟩ := List.mem_map.mp hx
    rw [if_neg (hnone i (List.mem_range.mp hi))] at hxi
    exact hxi.symm
  rw [hzero]
  ring

/-- Witness for C10: slot 0 is named by no point and keeps its value 100. -/
theorem bucket_accumulate_frame_witness :
    ((0 : Nat) < 2 ∧ ([100, 200] : List ℤ).length = 2 * 1 ∧
      (∀ i < 2, ([1, 1] : List Nat).getD i 0 ≠ 0) ∧ (0 : Nat) < 1) ∧
    (blas_bucket_accumulate [1, 1] [3, 4] [100, 200] 2 2 1).getD (0 * 1 + 0) 0 =
      ([100, 200] : List ℤ).getD (0 * 1 + 0) 0 :=
  ⟨⟨by decide, by decide, by decide, by decide⟩,
    bucket_accumulate_frame [1, 1] [3, 4] [100, 200] 2 2 1 0 (by decide)
      (by decide) (by decide) 0 (by decide)⟩

theorem sum_set_getD_add : ∀ (l : List ℤ) (p : Nat) (x : ℤ), p < l.length →
    (l.set p (l.getD p 0 + x)).sum = l.sum + x := by
  intro l
  induction l with
  | nil => intro p x hp; simp at hp
  | cons y ys ih =>
    intro p x hp
    cases p with
    | zero =>
      simp only [List.getD_cons_zero, List.set_cons_zero, List.sum_cons]
      ring
    | succ q =>
      have hq : q < ys.length := by simpa using hp
      simp only [List.getD_cons_succ, List.set_cons_succ, List.sum_cons, ih q x hq]
      ring

theorem setAdd_fold_sum (point_coords : List ℤ) (cs i b : Nat) :
    ∀ (cl : List Nat) (acc : List ℤ), (∀ c ∈ cl, b * cs + c < acc.length) →
      (cl.foldl (setAdd point_coords cs i b) acc).sum =
        acc.sum + (cl.map (fun c => point_coords.getD (i * cs + c) 0)).sum := by
  intro cl
  induction cl with
  | nil => intro acc _; simp
  | cons c0 cl ih =>
    intro acc hlt
    rw [List.foldl_cons, List.map_cons, List.sum_cons,
      ih _ (fun c hc => by
        rw [setAdd, List.length_set]
        exact hlt c (List.mem_cons_of_mem _ hc)),
      setAdd, sum_set_getD_add acc _ _ (hlt c0 (List.mem_cons_self _ _))]
    ring

theorem bucketInner_sum_range (point_coords : List ℤ) (cs i b : Nat)
    (acc : List ℤ) (h : ∀ c ∈ List.range cs, b * cs + c < acc.length) :
    (bucketInner point_coords cs i b acc).sum =
      acc.sum + ((List.range cs).map (fun c => point_coords.getD (i * cs + c) 0)).sum :=
  setAdd_fold_sum point_coords cs i b (List.range cs) acc h

/-- Conservation for the digit-extracting strategy (`sme_bucket_outer_product`,
non-Apple path) over an arbitrary list of point indices: with
`num_buckets = 2^w - 1` every nonzero digit is in range, so the bucket total
grows by exactly the points whose windowed digit `scalars[i] mod 2^w` is
nonzero. -/
theorem sme_fold_sum (scalars : List Nat) (points : List ℤ) (window_size : Nat) :
    ∀ (il : List Nat) (buckets : List ℤ),
      buckets.length = 2 ^ window_size - 1 →
      (il.foldl (fun acc i =>
        let bucket_idx := scalars.getD i 0 &&& (2 ^ window_size - 1)
        if 0 < bucket_idx ∧ bucket_idx ≤ 2 ^ window_size - 1 then
          acc.set (bucket_idx - 1) (acc.getD (bucket_idx - 1) 0 + points.getD i 0)
        else acc) buckets).sum =
      buckets.sum + (il.map (fun i =>
        if scalars.getD i 0 % 2 ^ window_size ≠ 0 then points.getD i 0 else 0)).sum := by
  intro il
  induction il with
  | nil => intro buckets _; simp
  | cons i0 il ih =>
    intro buckets hlen
    rw [List.foldl_cons, List.map_cons, List.sum_cons]
    have hmask : scalars.getD i0 0 &&& (2 ^ window_size - 1) =
        scalars.getD i0 0 % 2 ^ window_size :=
      Nat.and_pow_two_sub_one_eq_mod _ _
    have hle : scalars.getD i0 0 &&& (2 ^ window_size - 1) ≤ 2 ^ window_size - 1 :=
      Nat.and_le_right
    by_cases hz : 0 < scalars.getD i0 0 &&& (2 ^ window_size - 1)
    · rw [if_pos ⟨hz, hle⟩]
      have hset : (scalars.getD i0 0 &&& (2 ^ window_size - 1)) - 1 < buckets.length := by
        rw [hlen]
        omega
      rw [ih _ (by rw [List.length_set]; exact hlen),
        sum_set_getD_add buckets _ _ hset, if_pos (by omega : scalars.getD i0 0 % 2 ^ window_size ≠ 0)]
      ring
    · rw [if_neg (fun hcon => hz hcon.1), ih _ hlen,
        if_neg (by omega : ¬ scalars.getD i0 0 % 2 ^ window_size ≠ 0)]
      ring

theorem blas_fold_sum (bucket_indices : List Nat) (point_coords : List ℤ)
    (num_buckets coord_size : Nat) :
    ∀ (il : List Nat) (accum : List ℤ),
      accum.length = num_buckets * coord_size →
      (il.foldl (fun acc i =>
          if bucket_indices.getD i 0 < num_buckets then
            bucketInner point_coords coord_size i (bucket_indices.getD i 0) acc
          else acc) accum).sum =
        accum.sum + (il.map (fun i =>
          if bucket_indices.getD i 0 < num_buckets then
            ((List.range coord_size).map (fun c =>
              point_coords.getD (i * coord_size + c) 0)).sum
          else 0)).sum := by
  intro il
  induction il with
  | nil => intro accum _; simp
  | cons i0 il ih =>
    intro accum hlen
    rw [List.foldl_cons, List.map_cons, List.sum_cons]
    by_cases hin : bucket_indices.getD i0 0 < num_buckets
    · rw [if_pos hin, if_pos hin,
        ih _ (by rw [bucketInner_length]; exact hlen),
        bucketInner_sum_range point_coords coord_size i0 _ accum
          (fun c hc => by
            rw [hlen]
            exact slot_lt _ c num_buckets coord_size hin (List.mem_range.mp hc))]
      ring
    · rw [if_neg hin, if_neg hin, ih _ hlen]
      ring

/-- C8 counterexample: conservation as claimed fails for the direct
scatter-add strategy.  `w = 1`, `num_buckets = 2^1 - 1 = 1`, one point with
windowed digit 0 (`bucket_indices = [0]`) and coordinate 10, zero-initialized
buckets: the bucket total is 10, but the sum over points with nonzero digit
is 0 — `blas_bucket_accumulate` adds the digit-0 point to slot 0 instead of
skipping it. -/
theorem bucket_conservation_counterexample :
    (blas_bucket_accumulate [0] [10] [0] 1 1 1).sum = 10 ∧
    ((List.range 1).map (fun i => if ([0] : List Nat).getD i 0 % 2 ^ 1 ≠ 0 then
      ([10] : List ℤ).getD i 0 else 0)).sum = 0 ∧
    ¬ ((blas_bucket_accumulate [0] [10] [0] 1 1 1).sum =
      ((List.range 1).map (fun i => if ([0] : List Nat).getD i 0 % 2 ^ 1 ≠ 0 then
        ([10] : List ℤ).getD i 0 else 0)).sum) := by
  refine ⟨by decide, by decide, by decide⟩

/-- C8 (amended): bucket conservation holds as claimed for the
digit-extracting strategy (`sme_bucket_outer_product` with
`num_buckets = 2^w - 1`): the bucket total equals the initial total plus the
coordinates of exactly the points with nonzero windowed digit.  For the
direct scatter-add strategy (`blas_bucket_accumulate`) the bucket total
instead equals the initial total plus the coordinates of exactly the points
whose bucket index is in range (`< num_buckets`): index 0 is accumulated
into slot 0, not skipped, so the two strategies agree on digit data only
when no digit is 0 (and no index equals `num_buckets`). -/
theorem bucket_conservation_amended (scalars : List Nat) (points : List ℤ)
    (window_size num_scalars : Nat) (sbuckets : List ℤ)
    (hs : sbuckets.length = 2 ^ window_size - 1)
    (bucket_indices : List Nat) (point_coords bucket_accum : List ℤ)
    (num_points num_buckets coord_size : Nat)
    (hacc : bucket_accum.length = num_buckets * coord_size) :
    (sme_bucket_outer_product scalars points sbuckets num_scalars
        (2 ^ window_size - 1) window_size).sum =
      sbuckets.sum + ((List.range num_scalars).map (fun i =>
        if scalars.getD i 0 % 2 ^ window_size ≠ 0 then points.getD i 0 else 0)).sum ∧
    (blas_bucket_accumulate bucket_indices point_coords bucket_accum num_points
        num_buckets coord_size).sum =
      bucket_accum.sum + ((List.range num_points).map (fun i =>
        if bucket_indices.getD i 0 < num_buckets then
          ((List.range coord_size).map (fun c =>
            point_coords.getD (i * coord_size + c) 0)).sum
        else 0)).sum := by
  constructor
  · unfold sme_bucket_outer_product
    exact sme_fold_sum scalars points window_size (List.range num_scalars) sbuckets hs
  · unfold blas_bucket_accumulate
    exact blas_fold_sum bucket_indices point_coords num_buckets coord_size
      (List.range num_points) bucket_accum hacc

/-- Witness for the amended C8: `w = 1`, digits of `[1, 0, 2]` are
`[1, 0, 0]` so only point 0 counts on the sme path; on the blas path indices
`[0, 2, 1]` with `num_buckets = 2` accumulate points 0 and 2. -/
theorem bucket_conservation_amended_witness :
    (([0] : List ℤ).length = 2 ^ 1 - 1 ∧ ([0, 0] : List ℤ).length = 2 * 1) ∧
    ((sme_bucket_outer_product [1, 0, 2] [7, 8, 9] [0] 3 (2 ^ 1 - 1) 1).sum =
      ([0] : List ℤ).sum + ((List.range 3).map (fun i =>
        if ([1, 0, 2] : List Nat).getD i 0 % 2 ^ 1 ≠ 0 then
          ([7, 8, 9] : List ℤ).getD i 0 else 0)).sum ∧
    (blas_bucket_accumulate [0, 2, 1] [1, 2, 3] [0, 0] 3 2 1).sum =
      ([0, 0] : List ℤ).sum + ((List.range 3).map (fun i =>
        if ([0, 2, 1] : List Nat).getD i 0 < 2 then
          ((List.range 1).map (fun c =>
            ([1, 2, 3] : List ℤ).getD (i * 1 + c) 0)).sum
        else 0)).sum) :=
  ⟨⟨by decide, by decide⟩,
    bucket_conservation_amended [1, 0, 2] [7, 8, 9] 1 3 [0] (by decide)
      [0, 2, 1] [1, 2, 3] [0, 0] 3 2 1 (by decide)⟩

/-- Witness for C3 at the worst case: two 4-limb operands of all
`0xFFFFFFFFFFFFFFFF` limbs (full carry/borrow propagation). -/
theorem add_sub_carry_chain_totality_witness :
    ((List.replicate 4 (2 ^ 64 - 1)).length = (List.replicate 4 (2 ^ 64 - 1)).length ∧
      limbsValid (List.replicate 4 (2 ^ 64 - 1))) ∧
    (((add_with_carry (List.replicate 4 (2 ^ 64 - 1))
          (List.replicate 4 (2 ^ 64 - 1))).2 *
          2 ^ (64 * (List.replicate 4 (2 ^ 64 - 1)).length) +
        limbsVal (add_with_carry (List.replicate 4 (2 ^ 64 - 1))
          (List.replicate 4 (2 ^ 64 - 1))).1 =
        limbsVal (List.replicate 4 (2 ^ 64 - 1)) +
          limbsVal (List.replicate 4 (2 ^ 64 - 1)) ∧
      (add_with_carry (List.replicate 4 (2 ^ 64 - 1))
          (List.replicate 4 (2 ^ 64 - 1))).2 ≤ 1) ∧
    (limbsVal (sub_with_borrow (List.replicate 4 (2 ^ 64 - 1))
          (List.replicate 4 (2 ^ 64 - 1))).1 +
        limbsVal (List.replicate 4 (2 ^ 64 - 1)) =
        limbsVal (List.replicate 4 (2 ^ 64 - 1)) +
          (sub_with_borrow (List.replicate 4 (2 ^ 64 - 1))
            (List.replicate 4 (2 ^ 64 - 1))).2 *
            2 ^ (64 * (List.replicate 4 (2 ^ 64 - 1)).length) ∧
      ((sub_with_borrow (List.replicate 4 (2 ^ 64 - 1))
          (List.replicate 4 (2 ^ 64 - 1))).2 = 1 ↔
        limbsVal (List.replicate 4 (2 ^ 64 - 1)) <
          limbsVal (List.replicate 4 (2 ^ 64 - 1))))) :=
  ⟨⟨rfl, by decide⟩,
    add_sub_carry_chain_totality (List.replicate 4 (2 ^ 64 - 1))
      (List.replicate 4 (2 ^ 64 - 1)) rfl (by decide) (by decide)⟩

end ZkAccel
